import Mathlib

/-!
# Verification of the grid A* pathfinding core

Shallow embedding of `src/sample_project/c` (pathfinding.c, pathfinding.h, main.c,
map.h) and proofs about it.

Conventions of the embedding:
* The grid `char map[10][10]` is a function `Grid = Nat → Nat → Nat` giving each
  cell's stored byte; a cell is *open* iff its value is `0` (the C code tests
  `!map[i][j]`).
* The C `double` fields `col`, `row` only ever hold small integers, so they are
  embedded as `Int` (exact in a double).  The fields `h` (of `struct stop`) and
  `d` (of `struct route`) only ever hold `sqrt` of an integer: we store the exact
  radicand (`h2`, `d2 : Int`) and interpret the stored double through
  `Real.sqrt` (`hval`, `dval`).  This keeps graph construction fully computable
  while the interpreted values are the exact reals the C formulas denote.
* `g` is only ever written `DBL_MAX` by construction, and `DBL_MAX` functions as
  `+infinity` in the search, so `g : Option ℝ` with `none` for `DBL_MAX`/unseen.
* `from` is `-1` ("none") or a node index; embedded as `Int` (`from_`).
* `n_len` always equals the length of the `n` array in the C code (both are
  updated together), so the embedding keeps only the list `n`.
* `f` is uninitialized during construction and is search-scoped state; the
  search model keeps its own state record, so `f` is not a field here.
-/

/-- `MAP_SIZE_ROWS` from map.h. -/
def MAP_SIZE_ROWS : Nat := 10

/-- `MAP_SIZE_COLS` from map.h. -/
def MAP_SIZE_COLS : Nat := 10

/-- The grid `char map[ROWS][COLS]`: cell value at (row, col); open iff 0. -/
def Grid : Type := Nat → Nat → Nat

/-- The lookup table `int ind[ROWS][COLS]` as a function row → col → value. -/
def Ind : Type := Nat → Nat → Int

/-- Model of `struct stop` (pathfinding.h).  `h2` is the exact radicand of the
double `h = sqrt(...)`; `h2` is meaningless (the C value is uninitialized)
until the second pass of `init_stops` assigns it. -/
structure Stop where
  col : Int
  row : Int
  n : List Nat
  g : Option ℝ
  h2 : Int
  from_ : Int

instance : Inhabited Stop := ⟨⟨0, 0, [], none, 0, -1⟩⟩

/-- Model of `struct route` (pathfinding.h).  `d2` is the exact radicand of the
double `d = sqrt(...)`. -/
structure Route where
  x : Nat
  y : Nat
  d2 : Int
deriving DecidableEq

instance : Inhabited Route := ⟨⟨0, 0, 0⟩⟩

/-- The real value held by the `d` field of a route: `sqrt` of its radicand. -/
noncomputable def dval (e : Route) : ℝ := Real.sqrt (e.d2 : ℝ)

/-- The real value held by the `h` field of a stop: `sqrt` of its radicand. -/
noncomputable def hval (s : Stop) : ℝ := Real.sqrt (s.h2 : ℝ)

/-- Modelled from the spec: the initial contents of `int ind[10][10]` are defined
in map.c, which is not part of the sources; spec §3 says the auxiliary lookup
maps each coordinate not belonging to a node to "a sentinel meaning not a node",
and `init_routes` tests `ind[k][l] >= 0`, so the sentinel is `-1` everywhere. -/
def ind0 : Ind := fun _ _ => -1

/-- The interior cells (1..ROWS-2) × (1..COLS-2) in row-major scan order: the
iteration domain of the two nested loops of `init_stops` / `init_routes`. -/
def interiorCoords : List (Nat × Nat) :=
  (List.range' 1 (MAP_SIZE_ROWS - 2)).flatMap fun i =>
    (List.range' 1 (MAP_SIZE_COLS - 2)).map fun j => (i, j)

/-- The open interior cells of a grid, in row-major scan order. -/
def oc (m : Grid) : List (Nat × Nat) :=
  interiorCoords.filter fun p => m p.1 p.2 == 0

/-- The node created for cell `p = (i, j)` by the first loop of `init_stops`:
coordinates, `from = -1`, `g = DBL_MAX`, `n_len = 0`, `n = NULL`
(`h` still uninitialized). -/
def mkStop0 (p : Nat × Nat) : Stop :=
  { col := (p.2 : Int), row := (p.1 : Int), n := [], g := none, h2 := 0, from_ := -1 }

/-- Body of the first loop of `init_stops` for one cell `p = (i, j)`:
if the cell is open, append a node recording its coordinates and set
`ind[i][j]` to its index. -/
def stopStep (m : Grid) (acc : List Stop × Ind) (p : Nat × Nat) : List Stop × Ind :=
  if m p.1 p.2 = 0 then
    let t := acc.1.length
    (acc.1 ++ [mkStop0 p],
     fun a b => if a = p.1 ∧ b = p.2 then (t : Int) else acc.2 a b)
  else acc

/-- The first loop of `init_stops`: row-major scan of the interior cells. -/
def stopsScan (m : Grid) : List Stop × Ind :=
  interiorCoords.foldl (stopStep m) ([], ind0)

/-- Array access at a C `int` index: out of range (including negative) is
undefined; modelled as `none`. -/
def getI (l : List Stop) (e : Int) : Option Stop :=
  if e < 0 then none else l[e.toNat]?

/-- Second pass of `init_stops` on one stop `s`:
`h = sqrt(pow(stops[e].row - s.row, 2) + pow(stops[e].col - s.col, 2))`,
here recorded by its radicand. -/
def heurStep (ge : Stop) (s : Stop) : Stop :=
  { s with h2 := (ge.row - s.row) ^ 2 + (ge.col - s.col) ^ 2 }

/-- `init_stops` (pathfinding.c): scan the interior cells creating one node per
open cell, then let `e = s_len - 1` and set every node's heuristic to its
distance to node `e`.  When `s_len = 0` the second loop performs no accesses,
so the (then out-of-range) index `e = -1` is never used. -/
def init_stops (m : Grid) : List Stop × Ind :=
  let s1 := (stopsScan m).1
  let e : Int := (s1.length : Int) - 1
  (s1.map (heurStep ((getI s1 e).getD default)), (stopsScan m).2)

/-- `init_stops` with the array access of the second pass modelled partially:
`none` would mean the loop read `(*stops)[e]` out of range.  Used to state that
no out-of-range access happens (in particular on a degenerate grid). -/
def init_stopsChecked (m : Grid) : Option (List Stop × Ind) :=
  let s1 := (stopsScan m).1
  let e : Int := (s1.length : Int) - 1
  (s1.mapM fun s => (getI s1 e).map fun ge => heurStep ge s).map
    fun s2 => (s2, (stopsScan m).2)

/-- Append a new outgoing-edge index `t` to `stops[u].n` (the
`++stops[u].n_len; stops[u].n = realloc(...); stops[u].n[n_len-1] = t` block). -/
def appendN (stops : List Stop) (u t : Nat) : List Stop :=
  match stops[u]? with
  | some s => stops.set u { s with n := s.n ++ [t] }
  | none => stops

/-- Append one route from node `src` to node `dst` (the body of the innermost
`if (ind[k][l] >= 0)` block of `init_routes`): record the edge with
`d = sqrt(pow(stops[dst].row - stops[src].row, 2) + pow(stops[dst].col - stops[src].col, 2))`
(stored by its radicand) and push its index onto `stops[src].n`. -/
def addEdge (acc : List Stop × List Route) (src dst : Nat) : List Stop × List Route :=
  let sS := (acc.1[src]?).getD default
  let sD := (acc.1[dst]?).getD default
  let e : Route := { x := src, y := dst,
                     d2 := (sD.row - sS.row) ^ 2 + (sD.col - sS.col) ^ 2 }
  let t := acc.2.length
  (appendN acc.1 src t, acc.2 ++ [e])

/-- The 3×3 block of cells scanned by the `k`/`l` loops of `init_routes` around
`p = (i, j)`, in loop order; the center is skipped by the fold below, matching
`if ((k == i) and (l == j)) continue;`.  (For interior `p` both coordinates are
at least 1, so the truncated subtraction is exact.) -/
def square (p : Nat × Nat) : List (Nat × Nat) :=
  [(p.1 - 1, p.2 - 1), (p.1 - 1, p.2), (p.1 - 1, p.2 + 1),
   (p.1, p.2 - 1), (p.1, p.2), (p.1, p.2 + 1),
   (p.1 + 1, p.2 - 1), (p.1 + 1, p.2), (p.1 + 1, p.2 + 1)]

/-- Inner double loop of `init_routes` for one open interior cell `p`. -/
def innerStep (ind : Ind) (p : Nat × Nat) (acc : List Stop × List Route)
    (q : Nat × Nat) : List Stop × List Route :=
  if q = p then acc
  else if 0 ≤ ind q.1 q.2 then addEdge acc (ind p.1 p.2).toNat (ind q.1 q.2).toNat
  else acc

/-- Body of the outer double loop of `init_routes` for one cell `p`. -/
def routeStep (ind : Ind) (acc : List Stop × List Route) (p : Nat × Nat) :
    List Stop × List Route :=
  if 0 ≤ ind p.1 p.2 then (square p).foldl (innerStep ind p) acc else acc

/-- `init_routes` (pathfinding.c): for every ordered pair of 8-adjacent cells
both registered in `ind`, append a directed route and record its index in the
source node's outgoing list.  Returns the updated stops and the route table. -/
def init_routes (stops : List Stop) (ind : Ind) : List Stop × List Route :=
  interiorCoords.foldl (routeStep ind) (stops, [])

/-- All stops produced by the pipeline on grid `m` (after `init_stops` and the
`n`-list updates of `init_routes`). -/
def builtStops (m : Grid) : List Stop :=
  (init_routes (init_stops m).1 (init_stops m).2).1

/-- The route table produced by the pipeline on grid `m`. -/
def builtRoutes (m : Grid) : List Route :=
  (init_routes (init_stops m).1 (init_stops m).2).2

/-!
## The A* search engine, modelled from the spec

`find_path` is declared in pathfinding.h and called from main.c, but its
definition is not among the sources.  Everything in this section is
*modelled from the spec*, §4.2 (and §7(b) for the degenerate-grid check):

* search state per node: cost-from-start `g` (`none` = unseen/+infinity),
  predecessor `pre` (`none` = the C value `-1`), a frontier and a closed set;
* loop: select the frontier node with minimum `f = g + h`, ties broken by
  lowest node index; stop with success if it is the goal; otherwise close it
  and relax its outgoing edges, skipping closed destinations;
* on success reconstruct the path goal-first by following predecessors.

The spec stores `f` on the node; it is written only together with `g` and
always equals `g + h`, so the model computes the selection key on the fly.
-/

/-- Search-scoped state of the A* engine (spec §4.2): `g`, the predecessor
map `pre` (the spec's `from`), the frontier `fr` and the closed set `cl`. -/
structure SState where
  g : Nat → Option ℝ
  pre : Nat → Option Nat
  fr : List Nat
  cl : List Nat

/-- Selection key of a frontier node: `f = g + h`, with the node index as
lexicographic tie-break (spec §4.2 step 2a).  Frontier nodes always have a
finite `g`, so the `getD` default is never exercised. -/
noncomputable def fkey (h : Nat → ℝ) (st : SState) (u : Nat) : ℝ ×ₗ Nat :=
  toLex ((st.g u).getD 0 + h u, u)

/-- Relax one outgoing edge (index `t`) of the node `u` being expanded
(spec §4.2 step 2d): skip closed destinations; otherwise, if
`g' = g[u] + w < g[v]` (unseen counts as +infinity), set `g[v]`, `from[v]`,
and ensure `v` is in the frontier. -/
noncomputable def relax (routes : List Route) (u : Nat) (st : SState) (t : Nat) :
    SState :=
  match routes[t]? with
  | none => st
  | some e =>
    if e.y ∈ st.cl then st
    else
      match st.g u with
      | none => st
      | some gu =>
        let gNew := gu + dval e
        let better : Bool :=
          match st.g e.y with
          | none => true
          | some gy => decide (gNew < gy)
        if better then
          { g := fun v => if v = e.y then some gNew else st.g v,
            pre := fun v => if v = e.y then some u else st.pre v,
            fr := st.fr.insert e.y,
            cl := st.cl }
        else st

/-- Expand a selected node (spec §4.2 steps 2c–2d): remove it from the
frontier, mark it closed, and relax each edge on its outgoing list. -/
noncomputable def expand (adj : Nat → List Nat) (routes : List Route) (u : Nat)
    (st : SState) : SState :=
  (adj u).foldl (relax routes u) { st with fr := st.fr.erase u, cl := u :: st.cl }

/-- Path reconstruction (spec §4.2): follow predecessor links from the goal,
appending each node, until a node with no predecessor (the start).  The result
is goal-first.  Fuel bounds the chain length; exhaustion yields `none`. -/
def rebuild (pre : Nat → Option Nat) : Nat → Nat → Option (List Nat)
  | 0, _ => none
  | fuel + 1, v =>
    match pre v with
    | none => some [v]
    | some u => (rebuild pre fuel u).map fun l => v :: l

/-- The main loop of the engine (spec §4.2 step 2).  Returns the reconstructed
path together with the state at the moment of success, or `none` on failure
(empty frontier) or fuel exhaustion. -/
noncomputable def searchLoop (adj : Nat → List Nat) (routes : List Route)
    (h : Nat → ℝ) (goal nR : Nat) : Nat → SState → Option (List Nat × SState)
  | 0, _ => none
  | fuel + 1, st =>
    match st.fr.argmin (fkey h st) with
    | none => none
    | some u =>
      if u = goal then (rebuild st.pre nR goal).map fun p => (p, st)
      else searchLoop adj routes h goal nR fuel (expand adj routes u st)

/-- The outgoing-edge list of node `u` as read from the stop table. -/
def stopAdj (stops : List Stop) (u : Nat) : List Nat :=
  ((stops[u]?).map Stop.n).getD []

/-- The heuristic of node `u` as read from the stop table. -/
noncomputable def hfun (stops : List Stop) (u : Nat) : ℝ :=
  hval ((stops[u]?).getD default)

/-- Initial search state (spec §4.2 step 1): `g[start] = 0`, frontier = {start},
all other nodes unseen; no predecessors. -/
def initState : SState :=
  { g := fun v => if v = 0 then some 0 else none,
    pre := fun _ => none, fr := [0], cl := [] }

/-- The engine run on a built graph: start is node 0, goal is the last node
(spec §4.2).  A grid with no open interior cell (`s_len = 0`, start and goal
undefined) is detected up front and reported as failure (spec §7(b)).  Fuel
`s_len + 1` covers any run: each iteration closes a distinct node. -/
noncomputable def runAStar (stops : List Stop) (routes : List Route) :
    Option (List Nat × SState) :=
  if stops.length = 0 then none
  else searchLoop (stopAdj stops) routes (hfun stops) (stops.length - 1)
    stops.length (stops.length + 1) initState

/-- Modelled from the spec: `find_path` (declared in pathfinding.h, not among
the sources).  Success returns the goal-first node-index path. -/
noncomputable def find_path (stops : List Stop) (routes : List Route) :
    Option (List Nat) :=
  (runAStar stops routes).map fun r => r.1

/-!
## The caller (main.c)

main.c declares `int *path = NULL` and passes `path` *by value* to
`find_path` (the parameter has type `int *`, not `int **`), so nothing
`find_path` does can change main's `path` variable; only `*p_len` (passed by
address) flows back.  On success main executes `stops[path[i]]` for
`i = p_len-1 .. 0` with its own `path` still `NULL` — a null-pointer
dereference, modelled as the result `none` (undefined behavior).
-/

/-- What `main` observably does: print the path coordinates (goal-first loop,
printing `(col, row)` pairs) or print `IMPOSSIBLE`. -/
inductive MainOut where
  | success (printed : List (Int × Int)) (plen : Nat)
  | impossible
deriving DecidableEq

/-- Model of `main` (main.c): build the graph, call `find_path` passing the
value of `path` (`NULL`), then either print the path — reading through main's
own `path` pointer — or print `IMPOSSIBLE`.  `none` models a null-pointer
dereference. -/
noncomputable def mainModel (m : Grid) : Option MainOut :=
  let stops := builtStops m
  let pathVar : Option (List Nat) := none
  match find_path stops (builtRoutes m) with
  | some p =>
    match pathVar with
    | none => none
    | some arr =>
      some (.success (((arr.take p.length).reverse).map fun t =>
        ((stops.getD t default).col, (stops.getD t default).row)) p.length)
  | none => some .impossible

/-!
## Allocation-failure model

Neither `init_stops` nor `init_routes` inspects the result of any `realloc`:
each `realloc` result is stored and immediately written through.  To settle the
allocation-failure claim we re-run the same folds against an allocation oracle
`alloc : Nat → Bool` (whether the k-th allocation succeeds).  A failed
allocation makes `realloc` return `NULL`; the very next member write then
dereferences the null pointer — there is no code path that reports an error
(both functions return `void`). -/

/-- Outcome of running construction code under an allocation oracle: a normal
result, or the undefined behavior of writing through a failed allocation. -/
inductive AllocOut (α : Type) where
  | ok (val : α)
  | nullDeref
deriving DecidableEq

/-- `stopStep` under an allocation oracle; the extra `Nat` counts allocations
performed so far. -/
def stopStepAlloc (alloc : Nat → Bool) (m : Grid)
    (acc : AllocOut ((List Stop × Ind) × Nat)) (p : Nat × Nat) :
    AllocOut ((List Stop × Ind) × Nat) :=
  match acc with
  | .nullDeref => .nullDeref
  | .ok (st, k) =>
    if m p.1 p.2 = 0 then
      if alloc k then .ok (stopStep m st p, k + 1) else .nullDeref
    else .ok (st, k)

/-- The node-creating loop of `init_stops` under an allocation oracle. -/
def init_stopsAlloc (alloc : Nat → Bool) (m : Grid) :
    AllocOut ((List Stop × Ind) × Nat) :=
  interiorCoords.foldl (stopStepAlloc alloc m) (.ok (([], ind0), 0))

/-- `innerStep` under an allocation oracle: the route-table `realloc` and the
`stops[x].n` `realloc` each consume one allocation. -/
def innerStepAlloc (alloc : Nat → Bool) (ind : Ind) (p : Nat × Nat)
    (acc : AllocOut ((List Stop × List Route) × Nat)) (q : Nat × Nat) :
    AllocOut ((List Stop × List Route) × Nat) :=
  match acc with
  | .nullDeref => .nullDeref
  | .ok (st, k) =>
    if q = p then .ok (st, k)
    else if 0 ≤ ind q.1 q.2 then
      if alloc k ∧ alloc (k + 1) then
        .ok (addEdge st (ind p.1 p.2).toNat (ind q.1 q.2).toNat, k + 2)
      else .nullDeref
    else .ok (st, k)

/-- `routeStep` under an allocation oracle. -/
def routeStepAlloc (alloc : Nat → Bool) (ind : Ind)
    (acc : AllocOut ((List Stop × List Route) × Nat)) (p : Nat × Nat) :
    AllocOut ((List Stop × List Route) × Nat) :=
  match acc with
  | .nullDeref => .nullDeref
  | .ok _ =>
    if 0 ≤ ind p.1 p.2 then (square p).foldl (innerStepAlloc alloc ind p) acc
    else acc

/-- `init_routes` under an allocation oracle. -/
def init_routesAlloc (alloc : Nat → Bool) (stops : List Stop) (ind : Ind) :
    AllocOut ((List Stop × List Route) × Nat) :=
  interiorCoords.foldl (routeStepAlloc alloc ind) (.ok ((stops, []), 0))

/-!
## Specification-level descriptions of the built graph

These definitions give closed forms for what the construction folds build;
the characterization theorems below prove the folds equal to them.
-/

/-- Position of the first occurrence of `p` in a list (length if absent). -/
def posIn (p : Nat × Nat) : List (Nat × Nat) → Nat
  | [] => 0
  | q :: l => if q = p then 0 else posIn p l + 1

/-- The node index of an open interior cell: its position in the row-major
list of open interior cells. -/
def ocIdx (m : Grid) (p : Nat × Nat) : Nat := posIn p (oc m)

/-- The cell of the goal node: the last open interior cell in scan order. -/
def goalCell (m : Grid) : Nat × Nat := ((oc m).getLast?).getD (0, 0)

/-- Radicand of the heuristic of the node at cell `p`: squared Euclidean
distance to the goal cell. -/
def hRad (m : Grid) (p : Nat × Nat) : Int :=
  (((goalCell m).1 : Int) - (p.1 : Int)) ^ 2 + (((goalCell m).2 : Int) - (p.2 : Int)) ^ 2

/-- The node at cell `p` as produced by `init_stops` (heuristic filled in). -/
def mkStop2 (m : Grid) (p : Nat × Nat) : Stop :=
  { col := (p.2 : Int), row := (p.1 : Int), n := [], g := none,
    h2 := hRad m p, from_ := -1 }

/-- A stop with its outgoing list erased: the projection of a stop to the
fields `init_routes` leaves untouched. -/
def eraseN (s : Stop) : Stop := { s with n := [] }

/-- The route from the node of cell `p` to the node of cell `q`. -/
def mkRoute (m : Grid) (p q : Nat × Nat) : Route :=
  { x := ocIdx m p, y := ocIdx m q,
    d2 := ((q.1 : Int) - (p.1 : Int)) ^ 2 + ((q.2 : Int) - (p.2 : Int)) ^ 2 }

/-- The routes out of cell `p`, in the inner-loop order of `init_routes`. -/
def nbrRoutes (m : Grid) (p : Nat × Nat) : List Route :=
  (square p).filterMap fun q =>
    if q = p then none else if q ∈ oc m then some (mkRoute m p q) else none

/-- The full route table in creation order. -/
def routesSpec (m : Grid) : List Route := (oc m).flatMap (nbrRoutes m)

/-- The outgoing list of node `u` as forced by the route table: the indices of
the routes whose source is `u`, in increasing order. -/
def nSpec (routes : List Route) (u : Nat) : List Nat :=
  (List.range routes.length).filter fun t => (routes.getD t default).x == u

/-- 8-adjacency of two distinct cells: both coordinates differ by at most 1. -/
def adj8 (p q : Nat × Nat) : Prop :=
  p ≠ q ∧ ((p.1 : Int) - (q.1 : Int)).natAbs ≤ 1 ∧ ((p.2 : Int) - (q.2 : Int)).natAbs ≤ 1

/-- Euclidean distance between two cells. -/
noncomputable def eDist (p q : Nat × Nat) : ℝ :=
  Real.sqrt (((p.1 : ℝ) - (q.1 : ℝ)) ^ 2 + ((p.2 : ℝ) - (q.2 : ℝ)) ^ 2)

/-- A path in the built graph from `a` to `b`: a chain of routes of the route
table, each starting where the previous one ended. -/
inductive EdgePath (routes : List Route) : Nat → Nat → List Route → Prop
  | nil (v : Nat) : EdgePath routes v v []
  | cons {e : Route} {b : Nat} {es : List Route} (he : e ∈ routes)
      (tail : EdgePath routes e.y b es) : EdgePath routes e.x b (e :: es)

/-- The cost of a list of edges: the sum of their weights. -/
noncomputable def pathCost (es : List Route) : ℝ := (es.map dval).sum

/-- Core invariant of the A* search state over a graph with `n` nodes: finite
`g` values are nonnegative and confined to real nodes, the start is settled at
0 with no predecessor, predecessor links record a closed source and the edge
that set the value, closed and frontier cover the discovered nodes disjointly,
and closed nodes carry optimal costs. -/
structure AInvCore (routes : List Route) (n : Nat) (st : SState) : Prop where
  gNonneg : ∀ v x, st.g v = some x → 0 ≤ x
  gStart : st.g 0 = some 0
  preStart : st.pre 0 = none
  preOk : ∀ v u, st.pre v = some u → u ∈ st.cl ∧ ∃ e ∈ routes, e.x = u ∧ e.y = v ∧
      ∃ gu, st.g u = some gu ∧ st.g v = some (gu + dval e)
  preFin : ∀ v, v ≠ 0 → st.g v ≠ none → st.pre v ≠ none
  clFin : ∀ u ∈ st.cl, st.g u ≠ none
  frFin : ∀ v ∈ st.fr, st.g v ≠ none
  cover : ∀ v, st.g v ≠ none → v ∈ st.cl ∨ v ∈ st.fr
  disj : ∀ v ∈ st.fr, v ∉ st.cl
  frNodup : st.fr.Nodup
  gBound : ∀ v, st.g v ≠ none → v < n
  clOpt : ∀ u ∈ st.cl, ∀ gu, st.g u = some gu → ∀ es, EdgePath routes 0 u es →
      gu ≤ pathCost es

/-- Every node of `C` has all its outgoing edges relaxed in state `st`. -/
def ClRelaxedOn (routes : List Route) (C : List Nat) (st : SState) : Prop :=
  ∀ u ∈ C, ∀ e ∈ routes, e.x = u →
    ∃ gu gy, st.g u = some gu ∧ st.g e.y = some gy ∧ gy ≤ gu + dval e

/-- Full invariant: the core plus all closed nodes fully relaxed. -/
structure AInv (routes : List Route) (n : Nat) (st : SState) extends
    AInvCore routes n st : Prop where
  clRelaxed : ClRelaxedOn routes st.cl st

/-- All fields except the outgoing list agree with what `init_stops` built:
the stop table is the open-cell table (the `n` lists may differ). -/
def StopsOK (m : Grid) (stops : List Stop) : Prop :=
  stops.map eraseN = (oc m).map (mkStop2 m)

/-- Every node's outgoing list is exactly the indices of the routes leaving it,
in increasing order. -/
def NInv (stops : List Stop) (routes : List Route) : Prop :=
  ∀ u s, stops[u]? = some s → s.n = nSpec routes u

/-- `addEdge` with the stop-table reads modelled partially (`none` = an
out-of-range read of `stops[x]` / `stops[y]`). -/
def addEdgeChecked (acc : List Stop × List Route) (src dst : Nat) :
    Option (List Stop × List Route) :=
  match acc.1[src]?, acc.1[dst]? with
  | some sS, some sD =>
    some (appendN acc.1 src acc.2.length,
      acc.2 ++ [{ x := src, y := dst,
                  d2 := (sD.row - sS.row) ^ 2 + (sD.col - sS.col) ^ 2 }])
  | _, _ => none

/-- Inner loop of `init_routes`, checked variant. -/
def innerStepChecked (ind : Ind) (p : Nat × Nat)
    (acc : Option (List Stop × List Route)) (q : Nat × Nat) :
    Option (List Stop × List Route) :=
  match acc with
  | none => none
  | some st =>
    if q = p then some st
    else if 0 ≤ ind q.1 q.2 then
      addEdgeChecked st (ind p.1 p.2).toNat (ind q.1 q.2).toNat
    else some st

/-- Outer loop body of `init_routes`, checked variant. -/
def routeStepChecked (ind : Ind) (acc : Option (List Stop × List Route))
    (p : Nat × Nat) : Option (List Stop × List Route) :=
  match acc with
  | none => none
  | some st =>
    if 0 ≤ ind p.1 p.2 then (square p).foldl (innerStepChecked ind p) (some st)
    else some st

/-- `init_routes` with all stop-table reads modelled partially; `none` would
mean some read went out of range. -/
def init_routesChecked (stops : List Stop) (ind : Ind) :
    Option (List Stop × List Route) :=
  interiorCoords.foldl (routeStepChecked ind) (some (stops, []))

-- Sanity checks on a tiny concrete grid (single open interior cell).
def gridOne : Grid := fun i j => if i = 1 ∧ j = 1 then 0 else 1

example : oc gridOne = [(1, 1)] := by decide
example : (stopsScan gridOne).1.length = 1 := by decide
example : (init_stops gridOne).2 1 1 = 0 := by decide
example : (init_stops gridOne).2 0 1 = -1 := by decide
example : (builtRoutes gridOne) = [] := by decide

example : find_path (builtStops gridOne) (builtRoutes gridOne) = some [0] := rfl

/-- A grid with two horizontally adjacent open interior cells. -/
def gridTwo : Grid := fun i j => if i = 1 ∧ (j = 1 ∨ j = 2) then 0 else 1

example : oc gridTwo = [(1, 1), (1, 2)] := by decide
example : (builtRoutes gridTwo) = [⟨0, 1, 1⟩, ⟨1, 0, 1⟩] := by decide
example : (builtStops gridTwo).map Stop.n = [[0], [1]] := by decide
example : (builtStops gridTwo).map Stop.h2 = [1, 0] := by decide

/-!
## Characterization of `init_stops`
-/

theorem interiorCoords_nodup : interiorCoords.Nodup := by decide

theorem mem_interiorCoords {p : Nat × Nat} :
    p ∈ interiorCoords ↔ 1 ≤ p.1 ∧ p.1 ≤ 8 ∧ 1 ≤ p.2 ∧ p.2 ≤ 8 := by
  obtain ⟨a, b⟩ := p
  simp only [interiorCoords, MAP_SIZE_ROWS, MAP_SIZE_COLS, List.mem_flatMap, List.mem_map,
    List.mem_range'_1, Prod.mk.injEq]
  constructor
  · rintro ⟨i, hi, j, hj, rfl, rfl⟩
    omega
  · rintro ⟨h1, h2, h3, h4⟩
    exact ⟨a, by omega, b, ⟨by omega, rfl, rfl⟩⟩

theorem mem_oc {m : Grid} {p : Nat × Nat} :
    p ∈ oc m ↔ p ∈ interiorCoords ∧ m p.1 p.2 = 0 := by
  simp [oc, List.mem_filter]

theorem oc_nodup (m : Grid) : (oc m).Nodup :=
  (List.filter_sublist _).nodup interiorCoords_nodup

theorem foldl_stopStep_fst (m : Grid) (cells : List (Nat × Nat)) :
    ∀ acc : List Stop × Ind,
    (cells.foldl (stopStep m) acc).1 =
      acc.1 ++ (cells.filter fun p => m p.1 p.2 == 0).map mkStop0 := by
  induction cells with
  | nil => intro acc; simp
  | cons c cells ih =>
    intro acc
    rw [List.foldl_cons, ih]
    by_cases hc : m c.1 c.2 = 0
    · simp [stopStep, hc, List.filter_cons]
    · simp [stopStep, hc, List.filter_cons]

theorem foldl_stopStep_ind (m : Grid) (cells : List (Nat × Nat)) (hnd : cells.Nodup) :
    ∀ (acc : List Stop × Ind) (a b : Nat),
    (cells.foldl (stopStep m) acc).2 a b =
      if (a, b) ∈ cells ∧ m a b = 0
      then ((acc.1.length + posIn (a, b) (cells.filter fun p => m p.1 p.2 == 0) : Nat) : Int)
      else acc.2 a b := by
  induction cells with
  | nil => intro acc a b; simp
  | cons c cells ih =>
    intro acc a b
    have hcn : c ∉ cells := (List.nodup_cons.mp hnd).1
    rw [List.foldl_cons, ih (List.nodup_cons.mp hnd).2]
    by_cases hc : m c.1 c.2 = 0
    · have hfc : (List.filter (fun p => m p.1 p.2 == 0) (c :: cells)) =
          c :: List.filter (fun p => m p.1 p.2 == 0) cells := by
        rw [List.filter_cons, if_pos (by simpa using hc)]
      by_cases hab : (a, b) ∈ cells ∧ m a b = 0
      · have hne : (a, b) ≠ c := fun h => hcn (h ▸ hab.1)
        rw [if_pos hab, if_pos ⟨List.mem_cons_of_mem _ hab.1, hab.2⟩, hfc]
        simp only [stopStep, hc, if_true, List.length_append, List.length_singleton,
          posIn, if_neg (Ne.symm hne)]
        push_cast
        ring
      · by_cases habc : (a, b) = c
        · rw [if_neg hab, if_pos ⟨habc ▸ List.mem_cons_self c cells, by
            obtain ⟨c1, c2⟩ := c
            rw [Prod.mk.injEq] at habc
            rw [habc.1, habc.2]; exact hc⟩, hfc]
          obtain ⟨c1, c2⟩ := c
          rw [Prod.mk.injEq] at habc
          obtain ⟨h1, h2⟩ := habc
          subst h1; subst h2
          simp [stopStep, hc, posIn]
        · rw [if_neg hab, if_neg (by
            rintro ⟨hm, h0⟩
            rcases List.mem_cons.mp hm with h | h
            · exact habc h
            · exact hab ⟨h, h0⟩)]
          have hup : ¬(a = c.1 ∧ b = c.2) := by
            rintro ⟨h1, h2⟩
            obtain ⟨c1, c2⟩ := c
            exact habc (by rw [Prod.mk.injEq]; exact ⟨h1, h2⟩)
          simp [stopStep, hc, hup]
    · have hfc : (List.filter (fun p => m p.1 p.2 == 0) (c :: cells)) =
          List.filter (fun p => m p.1 p.2 == 0) cells := by
        rw [List.filter_cons, if_neg (by simpa using hc)]
      by_cases hab : (a, b) ∈ cells ∧ m a b = 0
      · rw [if_pos hab, if_pos ⟨List.mem_cons_of_mem _ hab.1, hab.2⟩]
        simp [stopStep, hc, hfc]
      · rw [if_neg hab, if_neg (by
          rintro ⟨hm, h0⟩
          rcases List.mem_cons.mp hm with h | h
          · subst h; exact hc h0
          · exact hab ⟨h, h0⟩)]
        simp [stopStep, hc]

theorem stopsScan_fst (m : Grid) : (stopsScan m).1 = (oc m).map mkStop0 := by
  rw [stopsScan, foldl_stopStep_fst]
  simp [oc]

theorem stopsScan_ind_mem (m : Grid) {p : Nat × Nat} (hp : p ∈ oc m) :
    (stopsScan m).2 p.1 p.2 = (ocIdx m p : Int) := by
  obtain ⟨a, b⟩ := p
  rw [stopsScan, foldl_stopStep_ind m interiorCoords interiorCoords_nodup]
  rw [if_pos (mem_oc.mp hp)]
  simp [ocIdx, oc]

theorem stopsScan_ind_not_mem (m : Grid) {p : Nat × Nat} (hp : p ∉ oc m) :
    (stopsScan m).2 p.1 p.2 = -1 := by
  obtain ⟨a, b⟩ := p
  rw [stopsScan, foldl_stopStep_ind m interiorCoords interiorCoords_nodup]
  rw [if_neg (fun hx => hp (mem_oc.mpr hx))]
  rfl

theorem posIn_lt {p : Nat × Nat} : ∀ {l : List (Nat × Nat)}, p ∈ l → posIn p l < l.length := by
  intro l hp
  induction l with
  | nil => cases hp
  | cons q l ih =>
    by_cases hq : q = p
    · simp [posIn, hq]
    · rcases List.mem_cons.mp hp with h | h
      · exact absurd h.symm hq
      · simpa [posIn, hq] using ih h

theorem get_posIn {p : Nat × Nat} : ∀ {l : List (Nat × Nat)} (hp : p ∈ l),
    l.get ⟨posIn p l, posIn_lt hp⟩ = p := by
  intro l
  induction l with
  | nil => intro hp; cases hp
  | cons q l ih =>
    intro hp
    by_cases hq : q = p
    · simp [posIn, hq]
    · rcases List.mem_cons.mp hp with h | h
      · exact absurd h.symm hq
      · simpa [posIn, hq] using ih h

theorem posIn_get : ∀ {l : List (Nat × Nat)}, l.Nodup → ∀ (i : Nat) (hi : i < l.length),
    posIn (l.get ⟨i, hi⟩) l = i := by
  intro l
  induction l with
  | nil => intro _ i hi; simp at hi
  | cons q l ih =>
    intro hnd i hi
    cases i with
    | zero => simp [posIn]
    | succ k =>
      have hk : k < l.length := by simpa using hi
      have hmem : l.get ⟨k, hk⟩ ∈ l := List.get_mem l k hk
      have hne : q ≠ l.get ⟨k, hk⟩ := fun h => (List.nodup_cons.mp hnd).1 (h ▸ hmem)
      have hstep : (q :: l).get ⟨k + 1, hi⟩ = l.get ⟨k, hk⟩ := rfl
      rw [hstep]
      simp only [posIn, if_neg hne]
      rw [ih (List.nodup_cons.mp hnd).2 k hk]

theorem ocIdx_lt {m : Grid} {p : Nat × Nat} (hp : p ∈ oc m) :
    ocIdx m p < (oc m).length := posIn_lt hp

theorem oc_get_ocIdx {m : Grid} {p : Nat × Nat} (hp : p ∈ oc m) :
    (oc m).get ⟨ocIdx m p, ocIdx_lt hp⟩ = p := get_posIn hp

theorem ocIdx_oc_get {m : Grid} (i : Nat) (hi : i < (oc m).length) :
    ocIdx m ((oc m).get ⟨i, hi⟩) = i := posIn_get (oc_nodup m) i hi

theorem goalCell_eq_get {m : Grid} (h : oc m ≠ []) :
    goalCell m = (oc m).get ⟨(oc m).length - 1, by
      have := List.length_pos.mpr h; omega⟩ := by
  rw [goalCell, List.getLast?_eq_getLast _ h, Option.getD_some, List.getLast_eq_getElem,
    List.get_eq_getElem]

theorem goalCell_mem {m : Grid} (h : oc m ≠ []) : goalCell m ∈ oc m := by
  rw [goalCell_eq_get h]
  exact List.get_mem _ _ _

theorem ocIdx_goalCell {m : Grid} (h : oc m ≠ []) :
    ocIdx m (goalCell m) = (oc m).length - 1 := by
  rw [goalCell_eq_get h, ocIdx_oc_get]

theorem init_stops_ind_eq (m : Grid) : (init_stops m).2 = (stopsScan m).2 := rfl

theorem scan_length (m : Grid) : (stopsScan m).1.length = (oc m).length := by
  rw [stopsScan_fst, List.length_map]

theorem getI_goal (m : Grid) (h : oc m ≠ []) :
    getI (stopsScan m).1 (((stopsScan m).1.length : Int) - 1) =
      some (mkStop0 (goalCell m)) := by
  have hLpos : 0 < (oc m).length := List.length_pos.mpr h
  have hlen := scan_length m
  rw [getI, if_neg (by rw [hlen]; omega)]
  have htn : ((((stopsScan m).1.length : Int)) - 1).toNat = (oc m).length - 1 := by
    rw [hlen]; omega
  rw [htn, stopsScan_fst, List.getElem?_map]
  rw [List.getElem?_eq_getElem (by omega)]
  rw [goalCell_eq_get h, List.get_eq_getElem]
  rfl

theorem init_stops_fst (m : Grid) : (init_stops m).1 = (oc m).map (mkStop2 m) := by
  by_cases h : oc m = []
  · have hs : (stopsScan m).1 = [] := by rw [stopsScan_fst, h]; rfl
    simp [init_stops, hs, h]
  · have hcomp : (heurStep (mkStop0 (goalCell m))) ∘ mkStop0 = mkStop2 m := by
      funext p
      simp [heurStep, mkStop0, mkStop2, hRad]
    calc (init_stops m).1
        = (stopsScan m).1.map (heurStep ((getI (stopsScan m).1
            (((stopsScan m).1.length : Int) - 1)).getD default)) := rfl
      _ = (stopsScan m).1.map (heurStep (mkStop0 (goalCell m))) := by
            rw [getI_goal m h, Option.getD_some]
      _ = (oc m).map (mkStop2 m) := by
            rw [stopsScan_fst, List.map_map, hcomp]

theorem init_stops_length (m : Grid) : (init_stops m).1.length = (oc m).length := by
  rw [init_stops_fst, List.length_map]

theorem init_stops_get (m : Grid) (i : Nat) (hi : i < (oc m).length) :
    ((init_stops m).1).get ⟨i, by rw [init_stops_length]; exact hi⟩ =
      mkStop2 m ((oc m).get ⟨i, hi⟩) := by
  simp [init_stops_fst]

theorem init_stopsChecked_eq (m : Grid) : init_stopsChecked m = some (init_stops m) := by
  have hmapM : ∀ (l : List Stop) (f : Stop → Option Stop) (g : Stop → Stop),
      (∀ s, f s = some (g s)) → l.mapM f = some (l.map g) := by
    intro l f g hf
    induction l with
    | nil => rfl
    | cons a l ih =>
      simp only [List.mapM_cons, hf a, List.map_cons, ih]
      rfl
  by_cases h : oc m = []
  · have hs : (stopsScan m).1 = [] := by rw [stopsScan_fst, h]; rfl
    simp [init_stopsChecked, init_stops, hs]
    rfl
  · calc init_stopsChecked m
        = ((stopsScan m).1.mapM fun s => some (heurStep (mkStop0 (goalCell m)) s)).map
            (fun s2 => (s2, (stopsScan m).2)) := by
          rw [init_stopsChecked]
          rw [getI_goal m h]
          rfl
      _ = some (init_stops m) := by
          rw [hmapM _ _ (heurStep (mkStop0 (goalCell m))) (fun _ => rfl), Option.map_some']
          have h1 : (init_stops m).1 =
              List.map (heurStep (mkStop0 (goalCell m))) (stopsScan m).1 := by
            show (stopsScan m).1.map (heurStep ((getI (stopsScan m).1
              (((stopsScan m).1.length : Int) - 1)).getD default)) = _
            rw [getI_goal m h, Option.getD_some]
          rw [← h1]
          rfl

/-!
## Characterization of `init_routes`
-/

theorem ind_mem (m : Grid) {a b : Nat} (h : (a, b) ∈ oc m) :
    (init_stops m).2 a b = (ocIdx m (a, b) : Int) := stopsScan_ind_mem m h

theorem ind_not_mem (m : Grid) {a b : Nat} (h : (a, b) ∉ oc m) :
    (init_stops m).2 a b = -1 := stopsScan_ind_not_mem m h

theorem ind_nonneg_iff (m : Grid) (a b : Nat) :
    0 ≤ (init_stops m).2 a b ↔ (a, b) ∈ oc m := by
  by_cases h : (a, b) ∈ oc m
  · rw [ind_mem m h]
    simp [h, Int.natCast_nonneg]
  · rw [ind_not_mem m h]
    simp [h]

theorem ind_toNat_mem (m : Grid) {a b : Nat} (h : (a, b) ∈ oc m) :
    ((init_stops m).2 a b).toNat = ocIdx m (a, b) := by
  rw [ind_mem m h, Int.toNat_natCast]

theorem stopsOK_init (m : Grid) : StopsOK m (init_stops m).1 := by
  rw [StopsOK, init_stops_fst, List.map_map]
  have h : eraseN ∘ mkStop2 m = mkStop2 m := funext fun p => rfl
  rw [h]

theorem stopsOK_length {m : Grid} {stops : List Stop} (h : StopsOK m stops) :
    stops.length = (oc m).length := by
  have := congrArg List.length h
  simpa using this

theorem stopsOK_getElem? {m : Grid} {stops : List Stop} (h : StopsOK m stops)
    {p : Nat × Nat} (hp : p ∈ oc m) :
    (stops[ocIdx m p]?).map eraseN = some (mkStop2 m p) := by
  have h2 := congrArg (fun l => l[ocIdx m p]?) h
  simp only [List.getElem?_map] at h2
  rw [h2]
  have hlt : ocIdx m p < (oc m).length := ocIdx_lt hp
  rw [List.getElem?_eq_getElem hlt]
  have : (oc m)[ocIdx m p] = p := by
    have := oc_get_ocIdx hp
    rwa [List.get_eq_getElem] at this
  rw [this]
  rfl

theorem stops_row_col {m : Grid} {stops : List Stop} (h : StopsOK m stops)
    {p : Nat × Nat} (hp : p ∈ oc m) :
    ((stops[ocIdx m p]?).getD default).row = (p.1 : Int) ∧
    ((stops[ocIdx m p]?).getD default).col = (p.2 : Int) := by
  obtain ⟨s, hs, hes⟩ := Option.map_eq_some'.mp (stopsOK_getElem? h hp)
  rw [hs, Option.getD_some]
  constructor
  · have : s.row = (eraseN s).row := rfl
    rw [this, hes]; rfl
  · have : s.col = (eraseN s).col := rfl
    rw [this, hes]; rfl

theorem set_self_of_getElem? {α : Type} {l : List α} {u : Nat} {x : α}
    (h : l[u]? = some x) : l.set u x = l := by
  have hu : u < l.length := (List.getElem?_eq_some.mp h).1
  apply List.ext_getElem?
  intro i
  by_cases hiu : u = i
  · subst hiu
    rw [List.getElem?_set_self hu, h]
  · rw [List.getElem?_set_ne hiu]

theorem appendN_stopsOK {m : Grid} {stops : List Stop} (h : StopsOK m stops)
    (u t : Nat) : StopsOK m (appendN stops u t) := by
  rw [appendN]
  cases hsu : stops[u]? with
  | none => exact h
  | some s =>
    rw [StopsOK, List.map_set]
    have he : eraseN { s with n := s.n ++ [t] } = eraseN s := rfl
    rw [he]
    have hm : (stops.map eraseN)[u]? = some (eraseN s) := by
      rw [List.getElem?_map, hsu]; rfl
    rw [set_self_of_getElem? hm]
    exact h

theorem appendN_length (stops : List Stop) (u t : Nat) :
    (appendN stops u t).length = stops.length := by
  rw [appendN]
  cases hsu : stops[u]? <;> simp

theorem nSpec_append (routes : List Route) (e : Route) (u : Nat) :
    nSpec (routes ++ [e]) u =
      nSpec routes u ++ (if e.x = u then [routes.length] else []) := by
  rw [nSpec, nSpec, List.length_append, List.length_singleton, List.range_succ,
    List.filter_append]
  congr 1
  · apply List.filter_congr
    intro t ht
    have htl : t < routes.length := List.mem_range.mp ht
    rw [List.getD_append _ _ _ _ htl]
  · have hgd : (routes ++ [e]).getD routes.length default = e := by
      simp [List.getD_append_right]
    rw [List.filter_singleton, hgd]
    by_cases hx : e.x = u
    · simp [hx]
    · have hb : (e.x == u) = false := by simp [hx]
      rw [hb]
      simp [hx]

theorem addEdge_fst (stops : List Stop) (routes : List Route) (src dst : Nat) :
    (addEdge (stops, routes) src dst).1 = appendN stops src routes.length := rfl

theorem addEdge_snd (m : Grid) {stops : List Stop} (routes : List Route)
    (h : StopsOK m stops) {p q : Nat × Nat} (hp : p ∈ oc m) (hq : q ∈ oc m) :
    (addEdge (stops, routes) (ocIdx m p) (ocIdx m q)).2 = routes ++ [mkRoute m p q] := by
  obtain ⟨hrp, hcp⟩ := stops_row_col h hp
  obtain ⟨hrq, hcq⟩ := stops_row_col h hq
  simp only [addEdge]
  rw [hrp, hcp, hrq, hcq]
  rfl

theorem addEdge_NInv {stops : List Stop} {routes : List Route} (hN : NInv stops routes)
    (src dst : Nat) (hsrc : src < stops.length) :
    NInv (addEdge (stops, routes) src dst).1 (addEdge (stops, routes) src dst).2 := by
  obtain ⟨s, hs⟩ : ∃ s, stops[src]? = some s := by
    rw [List.getElem?_eq_getElem hsrc]
    exact ⟨_, rfl⟩
  intro v sv hsv
  have h1 : (addEdge (stops, routes) src dst).1 =
      stops.set src { s with n := s.n ++ [routes.length] } := by
    show appendN stops src routes.length = _
    rw [appendN, hs]
  have h2 : ∃ d2v : Int, (addEdge (stops, routes) src dst).2 =
      routes ++ [{ x := src, y := dst, d2 := d2v }] := ⟨_, rfl⟩
  obtain ⟨d2v, h2⟩ := h2
  rw [h1] at hsv
  rw [h2]
  by_cases hv : v = src
  · subst hv
    rw [List.getElem?_set_self hsrc] at hsv
    have hsv2 := Option.some.inj hsv
    rw [← hsv2]
    show s.n ++ [routes.length] = _
    rw [nSpec_append, hN v s hs]
    simp
  · rw [List.getElem?_set_ne (fun hh => hv hh.symm)] at hsv
    rw [nSpec_append, hN v sv hsv]
    have : ({ x := src, y := dst, d2 := d2v } : Route).x = src := rfl
    rw [this, if_neg (fun hh => hv hh.symm)]
    simp

theorem innerFold_char (m : Grid) {p : Nat × Nat} (hp : p ∈ oc m) :
    ∀ (qs : List (Nat × Nat)) (acc : List Stop × List Route),
    StopsOK m acc.1 → NInv acc.1 acc.2 →
    StopsOK m ((qs.foldl (innerStep (init_stops m).2 p) acc).1) ∧
    NInv ((qs.foldl (innerStep (init_stops m).2 p) acc).1)
         ((qs.foldl (innerStep (init_stops m).2 p) acc).2) ∧
    (qs.foldl (innerStep (init_stops m).2 p) acc).2 =
      acc.2 ++ qs.filterMap (fun q =>
        if q = p then none else if q ∈ oc m then some (mkRoute m p q) else none) := by
  intro qs
  induction qs with
  | nil =>
    intro acc h1 h2
    exact ⟨h1, h2, by simp⟩
  | cons q qs ih =>
    intro acc h1 h2
    rw [List.foldl_cons]
    by_cases hqp : q = p
    · have hstep : innerStep (init_stops m).2 p acc q = acc := by
        rw [innerStep, if_pos hqp]
      rw [hstep, List.filterMap_cons]
      simp only [if_pos hqp]
      exact ih acc h1 h2
    · by_cases hqoc : q ∈ oc m
      · have hq2 : (q.1, q.2) ∈ oc m := by simpa using hqoc
        have hp2 : (p.1, p.2) ∈ oc m := by simpa using hp
        have hguard : 0 ≤ (init_stops m).2 q.1 q.2 := (ind_nonneg_iff m q.1 q.2).mpr hq2
        have hstep : innerStep (init_stops m).2 p acc q =
            addEdge acc (ocIdx m p) (ocIdx m q) := by
          rw [innerStep, if_neg hqp, if_pos hguard, ind_toNat_mem m hp2, ind_toNat_mem m hq2]
        have hsrc : ocIdx m p < acc.1.length := by
          rw [stopsOK_length h1]
          exact ocIdx_lt hp
        have hacc : addEdge acc (ocIdx m p) (ocIdx m q) =
            addEdge (acc.1, acc.2) (ocIdx m p) (ocIdx m q) := rfl
        have hOK2 : StopsOK m (addEdge acc (ocIdx m p) (ocIdx m q)).1 := by
          rw [hacc, addEdge_fst]
          exact appendN_stopsOK h1 _ _
        have hN2 : NInv (addEdge acc (ocIdx m p) (ocIdx m q)).1
            (addEdge acc (ocIdx m p) (ocIdx m q)).2 := by
          rw [hacc]
          exact addEdge_NInv h2 _ _ hsrc
        obtain ⟨hA, hB, hC⟩ := ih (addEdge acc (ocIdx m p) (ocIdx m q)) hOK2 hN2
        rw [hstep]
        refine ⟨hA, hB, ?_⟩
        rw [hC, hacc, addEdge_snd m acc.2 h1 hp hqoc, List.filterMap_cons]
        simp only [if_neg hqp, if_pos hqoc]
        rw [List.append_assoc]
        rfl
      · have hguard : ¬ 0 ≤ (init_stops m).2 q.1 q.2 := by
          rw [ind_nonneg_iff m q.1 q.2]
          simpa using hqoc
        have hstep : innerStep (init_stops m).2 p acc q = acc := by
          rw [innerStep, if_neg hqp, if_neg hguard]
        rw [hstep, List.filterMap_cons]
        simp only [if_neg hqp, if_neg hqoc]
        exact ih acc h1 h2

theorem routesFold_char (m : Grid) :
    ∀ (cells : List (Nat × Nat)) (acc : List Stop × List Route),
    StopsOK m acc.1 → NInv acc.1 acc.2 →
    StopsOK m ((cells.foldl (routeStep (init_stops m).2) acc).1) ∧
    NInv ((cells.foldl (routeStep (init_stops m).2) acc).1)
         ((cells.foldl (routeStep (init_stops m).2) acc).2) ∧
    (cells.foldl (routeStep (init_stops m).2) acc).2 =
      acc.2 ++ (cells.filter fun p => decide (p ∈ oc m)).flatMap (nbrRoutes m) := by
  intro cells
  induction cells with
  | nil =>
    intro acc h1 h2
    exact ⟨h1, h2, by simp⟩
  | cons c cells ih =>
    intro acc h1 h2
    rw [List.foldl_cons, List.filter_cons]
    by_cases hcoc : c ∈ oc m
    · have hc2 : (c.1, c.2) ∈ oc m := by simpa using hcoc
      have hguard : 0 ≤ (init_stops m).2 c.1 c.2 := (ind_nonneg_iff m c.1 c.2).mpr hc2
      have hstep : routeStep (init_stops m).2 acc c =
          (square c).foldl (innerStep (init_stops m).2 c) acc := by
        rw [routeStep, if_pos hguard]
      obtain ⟨hA1, hB1, hC1⟩ := innerFold_char m hcoc (square c) acc h1 h2
      obtain ⟨hA2, hB2, hC2⟩ :=
        ih ((square c).foldl (innerStep (init_stops m).2 c) acc) hA1 hB1
      rw [hstep]
      refine ⟨hA2, hB2, ?_⟩
      rw [hC2, hC1]
      rw [if_pos (by simpa using hcoc)]
      rw [List.flatMap_cons, List.append_assoc]
      rfl
    · have hguard : ¬ 0 ≤ (init_stops m).2 c.1 c.2 := by
        rw [ind_nonneg_iff m c.1 c.2]
        simpa using hcoc
      have hstep : routeStep (init_stops m).2 acc c = acc := by
        rw [routeStep, if_neg hguard]
      rw [hstep, if_neg (by simpa using hcoc)]
      exact ih acc h1 h2

theorem filter_interior_oc (m : Grid) :
    (interiorCoords.filter fun p => decide (p ∈ oc m)) = oc m := by
  rw [oc]
  apply List.filter_congr
  intro p hp
  by_cases h : m p.1 p.2 = 0
  · simp [mem_oc, hp, h]
  · simp [mem_oc, hp, h]

theorem NInv_init (m : Grid) : NInv (init_stops m).1 [] := by
  intro u s hs
  rw [init_stops_fst, List.getElem?_map] at hs
  obtain ⟨p, _hp, hps⟩ := Option.map_eq_some'.mp hs
  rw [← hps]
  rfl

theorem builtRoutes_eq (m : Grid) : builtRoutes m = routesSpec m := by
  obtain ⟨_hA, _hB, hC⟩ := routesFold_char m interiorCoords ((init_stops m).1, [])
    (stopsOK_init m) (NInv_init m)
  calc builtRoutes m
      = (interiorCoords.foldl (routeStep (init_stops m).2) ((init_stops m).1, [])).2 := rfl
    _ = routesSpec m := by
        rw [hC, filter_interior_oc]
        rfl

theorem builtStops_ok (m : Grid) : StopsOK m (builtStops m) :=
  (routesFold_char m interiorCoords ((init_stops m).1, [])
    (stopsOK_init m) (NInv_init m)).1

theorem builtStops_NInv (m : Grid) : NInv (builtStops m) (builtRoutes m) :=
  (routesFold_char m interiorCoords ((init_stops m).1, [])
    (stopsOK_init m) (NInv_init m)).2.1

theorem mem_routesSpec {m : Grid} {e : Route} :
    e ∈ routesSpec m ↔
      ∃ p q, p ∈ oc m ∧ q ∈ oc m ∧ q ≠ p ∧ q ∈ square p ∧ e = mkRoute m p q := by
  rw [routesSpec, List.mem_flatMap]
  constructor
  · rintro ⟨p, hp, he⟩
    rw [nbrRoutes, List.mem_filterMap] at he
    obtain ⟨q, hqs, hq⟩ := he
    by_cases h1 : q = p
    · rw [if_pos h1] at hq; cases hq
    · rw [if_neg h1] at hq
      by_cases h2 : q ∈ oc m
      · rw [if_pos h2] at hq
        exact ⟨p, q, hp, h2, h1, hqs, (Option.some.inj hq).symm⟩
      · rw [if_neg h2] at hq; cases hq
  · rintro ⟨p, q, hp, hq, hne, hsq, rfl⟩
    refine ⟨p, hp, ?_⟩
    rw [nbrRoutes, List.mem_filterMap]
    exact ⟨q, hsq, by rw [if_neg hne, if_pos hq]⟩

theorem mem_square_iff {p q : Nat × Nat} (h1 : 1 ≤ p.1) (h2 : 1 ≤ p.2) :
    q ∈ square p ↔ ((p.1 : Int) - (q.1 : Int)).natAbs ≤ 1 ∧
      ((p.2 : Int) - (q.2 : Int)).natAbs ≤ 1 := by
  obtain ⟨a, b⟩ := p
  obtain ⟨c, d⟩ := q
  simp only [square, List.mem_cons, List.not_mem_nil, or_false, Prod.mk.injEq]
  simp only [] at h1 h2
  omega

/-!
## Euclidean geometry of the built graph
-/

theorem eDist_as_abs (p q : Nat × Nat) :
    eDist p q = Complex.abs ⟨(p.1 : ℝ) - (q.1 : ℝ), (p.2 : ℝ) - (q.2 : ℝ)⟩ := by
  rw [eDist, Complex.abs_apply, Complex.normSq_mk]
  ring_nf

theorem eDist_triangle (a b c : Nat × Nat) : eDist a c ≤ eDist a b + eDist b c := by
  rw [eDist_as_abs, eDist_as_abs, eDist_as_abs]
  have h1 : (⟨(a.1 : ℝ) - (c.1 : ℝ), (a.2 : ℝ) - (c.2 : ℝ)⟩ : ℂ) =
      (⟨(a.1 : ℝ) - (b.1 : ℝ), (a.2 : ℝ) - (b.2 : ℝ)⟩ : ℂ) +
      (⟨(b.1 : ℝ) - (c.1 : ℝ), (b.2 : ℝ) - (c.2 : ℝ)⟩ : ℂ) := by
    apply Complex.ext
    · simp [Complex.add_re]
    · simp [Complex.add_im]
  rw [h1]
  exact Complex.abs.add_le _ _

theorem eDist_symm (p q : Nat × Nat) : eDist p q = eDist q p := by
  rw [eDist, eDist]
  ring_nf

theorem eDist_nonneg (p q : Nat × Nat) : 0 ≤ eDist p q := Real.sqrt_nonneg _

theorem dval_mkRoute (m : Grid) (p q : Nat × Nat) : dval (mkRoute m p q) = eDist p q := by
  rw [dval, eDist]
  congr 1
  show ((((q.1 : Int) - (p.1 : Int)) ^ 2 + ((q.2 : Int) - (p.2 : Int)) ^ 2 : Int) : ℝ) = _
  push_cast
  ring

theorem hval_built (m : Grid) {p : Nat × Nat} (hp : p ∈ oc m) :
    hval (((builtStops m)[ocIdx m p]?).getD default) = eDist p (goalCell m) := by
  obtain ⟨s, hs, hes⟩ := Option.map_eq_some'.mp (stopsOK_getElem? (builtStops_ok m) hp)
  rw [hs, Option.getD_some]
  have hh : s.h2 = hRad m p := by
    have h0 : s.h2 = (eraseN s).h2 := rfl
    rw [h0, hes]
    rfl
  rw [hval, hh, hRad, eDist]
  congr 1
  push_cast
  ring

theorem hfun_built (m : Grid) {p : Nat × Nat} (hp : p ∈ oc m) :
    hfun (builtStops m) (ocIdx m p) = eDist p (goalCell m) := hval_built m hp

theorem d2_cases {dr dc : Int} (h1 : dr.natAbs ≤ 1) (h2 : dc.natAbs ≤ 1)
    (h3 : ¬(dr = 0 ∧ dc = 0)) :
    dr ^ 2 + dc ^ 2 = 1 ∨ dr ^ 2 + dc ^ 2 = 2 := by
  have hb1 : -1 ≤ dr := by omega
  have hb2 : dr ≤ 1 := by omega
  have hb3 : -1 ≤ dc := by omega
  have hb4 : dc ≤ 1 := by omega
  interval_cases dr <;> interval_cases dc <;> simp_all

theorem mkRoute_d2_cases {m : Grid} {p q : Nat × Nat} (hne : q ≠ p)
    (h1 : ((p.1 : Int) - (q.1 : Int)).natAbs ≤ 1)
    (h2 : ((p.2 : Int) - (q.2 : Int)).natAbs ≤ 1) :
    (mkRoute m p q).d2 = 1 ∨ (mkRoute m p q).d2 = 2 := by
  have hd : (mkRoute m p q).d2 =
      ((q.1 : Int) - (p.1 : Int)) ^ 2 + ((q.2 : Int) - (p.2 : Int)) ^ 2 := rfl
  rw [hd]
  apply d2_cases
  · omega
  · omega
  · rintro ⟨ha, hb⟩
    apply hne
    have : q.1 = p.1 ∧ q.2 = p.2 := by omega
    obtain ⟨e1, e2⟩ := this
    obtain ⟨q1, q2⟩ := q
    obtain ⟨p1, p2⟩ := p
    simp only [] at e1 e2
    rw [Prod.mk.injEq]
    exact ⟨e1, e2⟩

/-!
## Claim theorems: graph construction
-/

theorem hval_mkStop2 (m : Grid) (p : Nat × Nat) :
    hval (mkStop2 m p) = eDist p (goalCell m) := by
  rw [hval, eDist]
  show Real.sqrt ((hRad m p : Int) : ℝ) = _
  rw [hRad]
  congr 1
  push_cast
  ring

/-- C3: on a grid with at least one open interior cell, `init_stops` creates
exactly one node per open interior cell, in row-major scan order: `s_len` is
the number of open interior cells and node `i` carries the coordinates of the
(i+1)-th open interior cell (so node 0 is the first and node `s_len - 1` the
last such cell). -/
theorem claim_C3 (m : Grid) (_hne : oc m ≠ []) :
    (init_stops m).1.length = (oc m).length ∧
    ∀ i (hi : i < (oc m).length),
      ((init_stops m).1.get ⟨i, by rw [init_stops_length]; exact hi⟩).row =
        (((oc m).get ⟨i, hi⟩).1 : Int) ∧
      ((init_stops m).1.get ⟨i, by rw [init_stops_length]; exact hi⟩).col =
        (((oc m).get ⟨i, hi⟩).2 : Int) := by
  refine ⟨init_stops_length m, ?_⟩
  intro i hi
  rw [init_stops_get m i hi]
  exact ⟨rfl, rfl⟩

/-- C5: after `init_stops`, every node's heuristic equals the Euclidean
distance from its cell to the cell of the last-created node (the goal); the
heuristic is computed in the second pass, against the last node, and
`init_routes` does not modify it. -/
theorem claim_C5 (m : Grid) (_hne : oc m ≠ []) :
    (∀ i (hi : i < (oc m).length),
      hval ((init_stops m).1.get ⟨i, by rw [init_stops_length]; exact hi⟩) =
        eDist ((oc m).get ⟨i, hi⟩) (goalCell m)) ∧
    (init_routes (init_stops m).1 (init_stops m).2).1.map Stop.h2 =
      (init_stops m).1.map Stop.h2 := by
  constructor
  · intro i hi
    rw [init_stops_get m i hi, hval_mkStop2]
  · have hcomp : Stop.h2 ∘ eraseN = Stop.h2 := funext fun s => rfl
    have h1 : (init_routes (init_stops m).1 (init_stops m).2).1.map Stop.h2 =
        ((oc m).map (mkStop2 m)).map Stop.h2 := by
      rw [← builtStops_ok m]
      rw [List.map_map, hcomp]
      rfl
    have h2 : (init_stops m).1.map Stop.h2 = ((oc m).map (mkStop2 m)).map Stop.h2 := by
      rw [← stopsOK_init m]
      rw [List.map_map, hcomp]
    rw [h1, h2]

/-- C9: after graph construction (both `init_stops` and `init_routes`) and
before any search, every node — including node 0 — has `g = DBL_MAX`
(modelled as `none`, the engine's +infinity) and `from = -1`. -/
theorem claim_C9 (m : Grid) :
    ∀ s ∈ (init_routes (init_stops m).1 (init_stops m).2).1,
      s.g = none ∧ s.from_ = -1 := by
  intro s hs
  have hok := builtStops_ok m
  have hmem : eraseN s ∈ (oc m).map (mkStop2 m) := by
    rw [← hok]
    exact List.mem_map_of_mem _ hs
  obtain ⟨p, _hp, he⟩ := List.mem_map.mp hmem
  constructor
  · have h0 : s.g = (eraseN s).g := rfl
    rw [h0, ← he]
    rfl
  · have h0 : s.from_ = (eraseN s).from_ := rfl
    rw [h0, ← he]
    rfl

theorem adj8_mem_square {m : Grid} {p q : Nat × Nat} (hp : p ∈ oc m) (hadj : adj8 p q) :
    q ∈ square p := by
  obtain ⟨hi, _⟩ := mem_oc.mp hp
  obtain ⟨hb1, _hb2, hb3, _hb4⟩ := mem_interiorCoords.mp hi
  exact (mem_square_iff hb1 hb3).mpr ⟨hadj.2.1, hadj.2.2⟩

theorem square_adj8 {m : Grid} {p q : Nat × Nat} (hp : p ∈ oc m) (hq : q ∈ square p)
    (hne : q ≠ p) : adj8 p q := by
  obtain ⟨hi, _⟩ := mem_oc.mp hp
  obtain ⟨hb1, _hb2, hb3, _hb4⟩ := mem_interiorCoords.mp hi
  obtain ⟨h1, h2⟩ := (mem_square_iff hb1 hb3).mp hq
  exact ⟨Ne.symm hne, h1, h2⟩

theorem d2_axis {dr dc : Int} (h1 : dr.natAbs ≤ 1) (h2 : dc.natAbs ≤ 1)
    (h3 : ¬(dr = 0 ∧ dc = 0)) :
    ((dr = 0 ∨ dc = 0) → dr ^ 2 + dc ^ 2 = 1) ∧
    (¬(dr = 0 ∨ dc = 0) → dr ^ 2 + dc ^ 2 = 2) := by
  have hb1 : -1 ≤ dr := by omega
  have hb2 : dr ≤ 1 := by omega
  have hb3 : -1 ≤ dc := by omega
  have hb4 : dc ≤ 1 := by omega
  interval_cases dr <;> interval_cases dc <;> simp_all

/-- C4: for every ordered pair of distinct 8-adjacent open interior cells, the
route table holds a directed route from the first cell's node to the second's
(hence routes in both directions for an unordered pair), whose weight (the
interpreted `d` field) is the Euclidean distance between the two nodes:
`1` for axis-aligned adjacency and `sqrt 2` for diagonal adjacency. -/
theorem claim_C4 (m : Grid) {p q : Nat × Nat} (hp : p ∈ oc m) (hq : q ∈ oc m)
    (hadj : adj8 p q) :
    ∃ e ∈ builtRoutes m, e.x = ocIdx m p ∧ e.y = ocIdx m q ∧
      dval e = eDist p q ∧
      ((p.1 = q.1 ∨ p.2 = q.2) → dval e = 1) ∧
      (¬(p.1 = q.1 ∨ p.2 = q.2) → dval e = Real.sqrt 2) := by
  refine ⟨mkRoute m p q, ?_, rfl, rfl, dval_mkRoute m p q, ?_, ?_⟩
  · rw [builtRoutes_eq, mem_routesSpec]
    exact ⟨p, q, hp, hq, Ne.symm hadj.1, adj8_mem_square hp hadj, rfl⟩
  · intro hax
    have hd : (mkRoute m p q).d2 =
        ((q.1 : Int) - (p.1 : Int)) ^ 2 + ((q.2 : Int) - (p.2 : Int)) ^ 2 := rfl
    have hne : ¬((q.1 : Int) - (p.1 : Int) = 0 ∧ (q.2 : Int) - (p.2 : Int) = 0) := by
      rintro ⟨ha, hb⟩
      apply hadj.1
      obtain ⟨p1, p2⟩ := p
      obtain ⟨q1, q2⟩ := q
      rw [Prod.mk.injEq]
      omega
    have := (@d2_axis ((q.1 : Int) - (p.1 : Int)) ((q.2 : Int) - (p.2 : Int))
      (by have := hadj.2.1; omega) (by have := hadj.2.2; omega) hne).1
      (by rcases hax with h | h
          · left; omega
          · right; omega)
    rw [dval, hd, this]
    simp
  · intro hax
    have hd : (mkRoute m p q).d2 =
        ((q.1 : Int) - (p.1 : Int)) ^ 2 + ((q.2 : Int) - (p.2 : Int)) ^ 2 := rfl
    have hne : ¬((q.1 : Int) - (p.1 : Int) = 0 ∧ (q.2 : Int) - (p.2 : Int) = 0) := by
      rintro ⟨ha, hb⟩
      apply hadj.1
      obtain ⟨p1, p2⟩ := p
      obtain ⟨q1, q2⟩ := q
      rw [Prod.mk.injEq]
      omega
    have := (@d2_axis ((q.1 : Int) - (p.1 : Int)) ((q.2 : Int) - (p.2 : Int))
      (by have := hadj.2.1; omega) (by have := hadj.2.2; omega) hne).2
      (by rintro (h | h)
          · exact hax (Or.inl (by omega))
          · exact hax (Or.inr (by omega)))
    rw [dval, hd, this]
    norm_num

/-- C6: after construction the lookup `ind` sends each open interior cell to
its node index (a valid index) and every other coordinate to the sentinel
`-1`, which is not a valid node index; consequently every route of the table
joins the nodes of two 8-adjacent open interior cells — never a blocked or
border cell. -/
theorem claim_C6 (m : Grid) :
    (∀ p : Nat × Nat,
      (p ∈ oc m → (init_stops m).2 p.1 p.2 = (ocIdx m p : Int) ∧
        ocIdx m p < (oc m).length) ∧
      (p ∉ oc m → (init_stops m).2 p.1 p.2 = -1)) ∧
    (∀ e ∈ builtRoutes m, ∃ p q, p ∈ oc m ∧ q ∈ oc m ∧ adj8 p q ∧
      e.x = ocIdx m p ∧ e.y = ocIdx m q) := by
  constructor
  · intro p
    constructor
    · intro hp
      obtain ⟨p1, p2⟩ := p
      exact ⟨ind_mem m hp, ocIdx_lt hp⟩
    · intro hp
      obtain ⟨p1, p2⟩ := p
      exact ind_not_mem m hp
  · intro e he
    rw [builtRoutes_eq, mem_routesSpec] at he
    obtain ⟨p, q, hp, hq, hne, hsq, rfl⟩ := he
    exact ⟨p, q, hp, hq, square_adj8 hp hsq hne, rfl, rfl⟩

theorem nSpec_mem {routes : List Route} {u t : Nat} (ht : t ∈ nSpec routes u) :
    t < routes.length := by
  rw [nSpec, List.mem_filter] at ht
  exact List.mem_range.mp ht.1

theorem nSpec_sorted (routes : List Route) (u : Nat) :
    (nSpec routes u).Sorted (· < ·) :=
  (List.pairwise_lt_range _).sublist (List.filter_sublist _)

theorem nSpec_length (routes : List Route) (u : Nat) :
    (nSpec routes u).length = routes.countP (fun e => e.x == u) := by
  induction routes using List.reverseRecOn with
  | nil => rfl
  | append_singleton routes e ih =>
    rw [nSpec_append, List.length_append, ih, List.countP_append]
    by_cases hx : e.x = u
    · simp [hx]
    · simp [hx]

theorem nbrRoutes_x {m : Grid} {p : Nat × Nat} {e : Route} (he : e ∈ nbrRoutes m p) :
    e.x = ocIdx m p := by
  rw [nbrRoutes, List.mem_filterMap] at he
  obtain ⟨q, _, hq⟩ := he
  by_cases h1 : q = p
  · rw [if_pos h1] at hq; cases hq
  · rw [if_neg h1] at hq
    by_cases h2 : q ∈ oc m
    · rw [if_pos h2] at hq
      rw [← Option.some.inj hq]
      rfl
    · rw [if_neg h2] at hq; cases hq

theorem length_filterMap_lt {α β : Type} (f : α → Option β) (l : List α) (a : α)
    (ha : a ∈ l) (hfa : f a = none) : (l.filterMap f).length + 1 ≤ l.length := by
  induction l with
  | nil => cases ha
  | cons b l ih =>
    rw [List.filterMap_cons]
    rcases List.mem_cons.mp ha with h | h
    · subst h
      rw [hfa]
      have := List.length_filterMap_le f l
      simp only [List.length_cons]
      omega
    · cases hfb : f b
      · have := ih h
        simpa using by omega
      · have := ih h
        simp only [List.length_cons]
        simp
        omega

theorem nbrRoutes_length_le (m : Grid) (p : Nat × Nat) : (nbrRoutes m p).length ≤ 8 := by
  have hmem : ((p.1, p.2) : Nat × Nat) ∈ square p := by
    rw [square]
    simp
  have hnone : (fun q => if q = p then none
      else if q ∈ oc m then some (mkRoute m p q) else none) ((p.1, p.2) : Nat × Nat) =
      (none : Option Route) := by
    show (if ((p.1, p.2) : Nat × Nat) = p then none
      else if ((p.1, p.2) : Nat × Nat) ∈ oc m then some (mkRoute m p (p.1, p.2)) else none) = none
    rw [if_pos rfl]
  have hlt := length_filterMap_lt
    (fun q => if q = p then none else if q ∈ oc m then some (mkRoute m p q) else none)
    (square p) ((p.1, p.2) : Nat × Nat) hmem hnone
  have hsq : (square p).length = 9 := rfl
  rw [hsq] at hlt
  rw [nbrRoutes]
  omega

theorem ocIdx_inj {m : Grid} {p q : Nat × Nat} (hp : p ∈ oc m) (hq : q ∈ oc m)
    (hidx : ocIdx m p = ocIdx m q) : p = q := by
  have e1 := oc_get_ocIdx hp
  have e2 := oc_get_ocIdx hq
  rw [← e1, ← e2]
  congr 1
  exact Fin.ext hidx

theorem countP_flatMap_le (m : Grid) (u : Nat) :
    ∀ l : List (Nat × Nat), l.Nodup → (∀ p ∈ l, p ∈ oc m) →
    ((l.flatMap (nbrRoutes m)).countP fun e => e.x == u) ≤ 8 := by
  intro l
  induction l with
  | nil =>
    intro _ _
    simp
  | cons p rest ih =>
    intro hnd hmem
    rw [List.flatMap_cons, List.countP_append]
    by_cases hxp : ocIdx m p = u
    · have hrest : ((rest.flatMap (nbrRoutes m)).countP fun e => e.x == u) = 0 := by
        rw [List.countP_eq_zero]
        intro e he
        rw [List.mem_flatMap] at he
        obtain ⟨p2, hp2, hep2⟩ := he
        have hx2 := nbrRoutes_x hep2
        have hne : p2 ≠ p := fun hh => (List.nodup_cons.mp hnd).1 (hh ▸ hp2)
        have hidx : ocIdx m p2 ≠ ocIdx m p := fun hh =>
          hne (ocIdx_inj (hmem p2 (List.mem_cons_of_mem _ hp2))
            (hmem p (List.mem_cons_self _ _)) hh)
        simp only [beq_iff_eq]
        exact fun hcon => hidx (by rw [← hx2, hcon, hxp])
      have hblock : ((nbrRoutes m p).countP fun e => e.x == u) ≤ (nbrRoutes m p).length :=
        List.countP_le_length _
      have hlen := nbrRoutes_length_le m p
      omega
    · have hblock : ((nbrRoutes m p).countP fun e => e.x == u) = 0 := by
        rw [List.countP_eq_zero]
        intro e he
        simp only [beq_iff_eq]
        rw [nbrRoutes_x he]
        exact hxp
      rw [hblock]
      have := ih (List.nodup_cons.mp hnd).2
        (fun p2 hp2 => hmem p2 (List.mem_cons_of_mem _ hp2))
      omega

/-- C10: after `init_routes`, every node's outgoing list is exactly the set of
route-table indices whose source is that node, each a valid index, listed in
increasing creation order; its length (the C `n_len`) is at most 8. -/
theorem claim_C10 (m : Grid) :
    ∀ u s, (builtStops m)[u]? = some s →
      s.n = nSpec (builtRoutes m) u ∧
      (∀ t ∈ s.n, t < (builtRoutes m).length) ∧
      s.n.Sorted (· < ·) ∧
      s.n.length ≤ 8 := by
  intro u s hs
  have hn := builtStops_NInv m u s hs
  refine ⟨hn, ?_, ?_, ?_⟩
  · intro t ht
    rw [hn] at ht
    exact nSpec_mem ht
  · rw [hn]
    exact nSpec_sorted _ _
  · rw [hn, nSpec_length, builtRoutes_eq, routesSpec]
    exact countP_flatMap_le m u (oc m) (oc_nodup m) (fun p hp => hp)

/-!
## Claim theorems: error paths (degenerate grid, allocation failure, main)
-/

theorem init_routes_deg {ind : Ind} (hneg : ∀ a b, ind a b = -1) (stops : List Stop) :
    init_routes stops ind = (stops, []) := by
  rw [init_routes]
  have hfold : ∀ (cells : List (Nat × Nat)) (st : List Stop × List Route),
      cells.foldl (routeStep ind) st = st := by
    intro cells
    induction cells with
    | nil => intro st; rfl
    | cons c cells ih =>
      intro st
      rw [List.foldl_cons]
      have hstep : routeStep ind st c = st := by
        rw [routeStep, if_neg (by rw [hneg]; omega)]
      rw [hstep]
      exact ih st
  exact hfold interiorCoords (stops, [])

theorem init_routesChecked_deg {ind : Ind} (hneg : ∀ a b, ind a b = -1)
    (stops : List Stop) : init_routesChecked stops ind = some (stops, []) := by
  rw [init_routesChecked]
  have hfold : ∀ (cells : List (Nat × Nat)) (st : List Stop × List Route),
      cells.foldl (routeStepChecked ind) (some st) = some st := by
    intro cells
    induction cells with
    | nil => intro st; rfl
    | cons c cells ih =>
      intro st
      rw [List.foldl_cons]
      have hstep : routeStepChecked ind (some st) c = some st := by
        show (if 0 ≤ ind c.1 c.2 then (square c).foldl (innerStepChecked ind c) (some st)
          else some st) = some st
        rw [if_neg (by rw [hneg]; omega)]
      rw [hstep]
      exact ih st
  exact hfold interiorCoords (stops, [])

theorem ind_deg (m : Grid) (hdeg : oc m = []) : ∀ a b, (init_stops m).2 a b = -1 := by
  intro a b
  apply ind_not_mem
  rw [hdeg]
  exact List.not_mem_nil _

theorem init_stops_deg (m : Grid) (hdeg : oc m = []) : (init_stops m).1 = [] := by
  rw [init_stops_fst, hdeg]
  rfl

/-- C7: on a grid with no open interior cell the pipeline performs no
out-of-range indexing of the node or edge tables (the checked models return a
defined result: the node table is empty, the second pass of `init_stops` never
reads `stops[-1]`, and `init_routes` creates no edge), the degenerate
condition is detected by the engine (`s_len = 0`, modelled from spec §7(b))
and reported as a failure result, and `main` reports it by printing
`IMPOSSIBLE` rather than dereferencing anything. -/
theorem claim_C7 (m : Grid) (hdeg : oc m = []) :
    init_stopsChecked m = some ([], (init_stops m).2) ∧
    init_routesChecked (init_stops m).1 (init_stops m).2 = some ((init_stops m).1, []) ∧
    (init_stops m).1 = [] ∧
    find_path (builtStops m) (builtRoutes m) = none ∧
    mainModel m = some MainOut.impossible := by
  have hse : (init_stops m).1 = [] := init_stops_deg m hdeg
  have hb : builtStops m = [] := by
    rw [builtStops, init_routes_deg (ind_deg m hdeg), hse]
  refine ⟨?_, ?_, hse, ?_, ?_⟩
  · rw [init_stopsChecked_eq m]
    rw [show (init_stops m) = ((init_stops m).1, (init_stops m).2) from rfl, hse]
  · exact init_routesChecked_deg (ind_deg m hdeg) _
  · rw [hb]
    rfl
  · have hfp : find_path (builtStops m) (builtRoutes m) = none := by
      rw [hb]
      rfl
    show (match find_path (builtStops m) (builtRoutes m) with
      | some p =>
        match (none : Option (List Nat)) with
        | none => none
        | some arr =>
          some (MainOut.success (((arr.take p.length).reverse).map fun t =>
            (((builtStops m).getD t default).col, ((builtStops m).getD t default).row))
            p.length)
      | none => some MainOut.impossible) = some MainOut.impossible
    rw [hfp]

theorem stopsAlloc_absorb (alloc : Nat → Bool) (m : Grid) :
    ∀ cells : List (Nat × Nat),
      cells.foldl (stopStepAlloc alloc m) .nullDeref = .nullDeref := by
  intro cells
  induction cells with
  | nil => rfl
  | cons c cells ih =>
    rw [List.foldl_cons]
    exact ih

theorem stopsAlloc_hits (m : Grid) :
    ∀ (cells : List (Nat × Nat)) (st : List Stop × Ind) (k : Nat),
      (∃ p ∈ cells, m p.1 p.2 = 0) →
      cells.foldl (stopStepAlloc (fun _ => false) m) (.ok (st, k)) = .nullDeref := by
  intro cells
  induction cells with
  | nil =>
    rintro st k ⟨p, hp, _⟩
    cases hp
  | cons c cells ih =>
    rintro st k ⟨p, hp, hopen⟩
    rw [List.foldl_cons]
    by_cases hc : m c.1 c.2 = 0
    · have hstep : stopStepAlloc (fun _ => false) m (.ok (st, k)) c = .nullDeref := by
        show (if m c.1 c.2 = 0 then
          if (fun _ => false) k then AllocOut.ok (stopStep m st c, k + 1)
          else AllocOut.nullDeref else AllocOut.ok (st, k)) = AllocOut.nullDeref
        rw [if_pos hc]
        rfl
      rw [hstep]
      exact stopsAlloc_absorb _ m cells
    · have hstep : stopStepAlloc (fun _ => false) m (.ok (st, k)) c = .ok (st, k) := by
        show (if m c.1 c.2 = 0 then
          if (fun _ => false) k then AllocOut.ok (stopStep m st c, k + 1)
          else AllocOut.nullDeref else AllocOut.ok (st, k)) = AllocOut.ok (st, k)
        rw [if_neg hc]
      rw [hstep]
      apply ih
      rcases List.mem_cons.mp hp with h | h
      · exact absurd (h ▸ hopen) hc
      · exact ⟨p, h, hopen⟩

theorem routesAlloc_absorb (alloc : Nat → Bool) (ind : Ind) :
    ∀ cells : List (Nat × Nat),
      cells.foldl (routeStepAlloc alloc ind) .nullDeref = .nullDeref := by
  intro cells
  induction cells with
  | nil => rfl
  | cons c cells ih =>
    rw [List.foldl_cons]
    exact ih

theorem innerAlloc_absorb (alloc : Nat → Bool) (ind : Ind) (p : Nat × Nat) :
    ∀ qs : List (Nat × Nat),
      qs.foldl (innerStepAlloc alloc ind p) .nullDeref = .nullDeref := by
  intro qs
  induction qs with
  | nil => rfl
  | cons q qs ih =>
    rw [List.foldl_cons]
    exact ih

theorem innerAlloc_hits (ind : Ind) (p : Nat × Nat) :
    ∀ (qs : List (Nat × Nat)) (st : List Stop × List Route) (k : Nat),
      (∃ q ∈ qs, q ≠ p ∧ 0 ≤ ind q.1 q.2) →
      qs.foldl (innerStepAlloc (fun _ => false) ind p) (.ok (st, k)) = .nullDeref := by
  intro qs
  induction qs with
  | nil =>
    rintro st k ⟨q, hq, _⟩
    cases hq
  | cons q0 qs ih =>
    rintro st k ⟨q, hq, hqp, hqind⟩
    rw [List.foldl_cons]
    by_cases h1 : q0 = p
    · have hstep : innerStepAlloc (fun _ => false) ind p (.ok (st, k)) q0 = .ok (st, k) := by
        show (if q0 = p then AllocOut.ok (st, k) else
          if 0 ≤ ind q0.1 q0.2 then
            if (fun _ => false) k ∧ (fun _ => false) (k + 1) then
              AllocOut.ok (addEdge st (ind p.1 p.2).toNat (ind q0.1 q0.2).toNat, k + 2)
            else AllocOut.nullDeref
          else AllocOut.ok (st, k)) = AllocOut.ok (st, k)
        rw [if_pos h1]
      rw [hstep]
      apply ih
      rcases List.mem_cons.mp hq with h | h
      · exact absurd (h ▸ hqp) (by rw [h1]; exact fun hh => hh rfl)
      · exact ⟨q, h, hqp, hqind⟩
    · by_cases h2 : 0 ≤ ind q0.1 q0.2
      · have hstep : innerStepAlloc (fun _ => false) ind p (.ok (st, k)) q0 = .nullDeref := by
          show (if q0 = p then AllocOut.ok (st, k) else
            if 0 ≤ ind q0.1 q0.2 then
              if (fun _ => false) k ∧ (fun _ => false) (k + 1) then
                AllocOut.ok (addEdge st (ind p.1 p.2).toNat (ind q0.1 q0.2).toNat, k + 2)
              else AllocOut.nullDeref
            else AllocOut.ok (st, k)) = AllocOut.nullDeref
          rw [if_neg h1, if_pos h2, if_neg (by simp)]
        rw [hstep]
        exact innerAlloc_absorb _ ind p qs
      · have hstep : innerStepAlloc (fun _ => false) ind p (.ok (st, k)) q0 = .ok (st, k) := by
          show (if q0 = p then AllocOut.ok (st, k) else
            if 0 ≤ ind q0.1 q0.2 then
              if (fun _ => false) k ∧ (fun _ => false) (k + 1) then
                AllocOut.ok (addEdge st (ind p.1 p.2).toNat (ind q0.1 q0.2).toNat, k + 2)
              else AllocOut.nullDeref
            else AllocOut.ok (st, k)) = AllocOut.ok (st, k)
          rw [if_neg h1, if_neg h2]
        rw [hstep]
        apply ih
        rcases List.mem_cons.mp hq with h | h
        · exact absurd (h ▸ hqind) h2
        · exact ⟨q, h, hqp, hqind⟩

theorem routesAlloc_hits (ind : Ind) :
    ∀ (cells : List (Nat × Nat)) (st : List Stop × List Route) (k : Nat),
      (∃ p ∈ cells, 0 ≤ ind p.1 p.2 ∧ ∃ q ∈ square p, q ≠ p ∧ 0 ≤ ind q.1 q.2) →
      cells.foldl (routeStepAlloc (fun _ => false) ind) (.ok (st, k)) = .nullDeref := by
  intro cells
  induction cells with
  | nil =>
    rintro st k ⟨p, hp, _⟩
    cases hp
  | cons c cells ih =>
    rintro st k ⟨p, hp, hpind, q, hq, hqp, hqind⟩
    rw [List.foldl_cons]
    by_cases hc : 0 ≤ ind c.1 c.2
    · by_cases hcq : ∃ q2 ∈ square c, q2 ≠ c ∧ 0 ≤ ind q2.1 q2.2
      · have hstep : routeStepAlloc (fun _ => false) ind (.ok (st, k)) c = .nullDeref := by
          show (if 0 ≤ ind c.1 c.2 then
            (square c).foldl (innerStepAlloc (fun _ => false) ind c) (AllocOut.ok (st, k))
            else AllocOut.ok (st, k)) = AllocOut.nullDeref
          rw [if_pos hc]
          exact innerAlloc_hits ind c (square c) st k hcq
        rw [hstep]
        exact routesAlloc_absorb _ ind cells
      · -- the inner fold performs no allocation and leaves the state unchanged
        have hinner : ∀ (qs : List (Nat × Nat)),
            (∀ q2 ∈ qs, ¬(q2 ≠ c ∧ 0 ≤ ind q2.1 q2.2)) →
            qs.foldl (innerStepAlloc (fun _ => false) ind c) (.ok (st, k)) = .ok (st, k) := by
          intro qs
          induction qs with
          | nil => intro _; rfl
          | cons q0 qs ih2 =>
            intro hno
            rw [List.foldl_cons]
            by_cases h1 : q0 = c
            · have hstep : innerStepAlloc (fun _ => false) ind c (.ok (st, k)) q0 =
                  .ok (st, k) := by
                show (if q0 = c then AllocOut.ok (st, k) else
                  if 0 ≤ ind q0.1 q0.2 then
                    if (fun _ => false) k ∧ (fun _ => false) (k + 1) then
                      AllocOut.ok (addEdge st (ind c.1 c.2).toNat (ind q0.1 q0.2).toNat, k + 2)
                    else AllocOut.nullDeref
                  else AllocOut.ok (st, k)) = AllocOut.ok (st, k)
                rw [if_pos h1]
              rw [hstep]
              exact ih2 (fun q2 hq2 => hno q2 (List.mem_cons_of_mem _ hq2))
            · have h2 : ¬ 0 ≤ ind q0.1 q0.2 := by
                intro h2
                exact hno q0 (List.mem_cons_self _ _) ⟨h1, h2⟩
              have hstep : innerStepAlloc (fun _ => false) ind c (.ok (st, k)) q0 =
                  .ok (st, k) := by
                show (if q0 = c then AllocOut.ok (st, k) else
                  if 0 ≤ ind q0.1 q0.2 then
                    if (fun _ => false) k ∧ (fun _ => false) (k + 1) then
                      AllocOut.ok (addEdge st (ind c.1 c.2).toNat (ind q0.1 q0.2).toNat, k + 2)
                    else AllocOut.nullDeref
                  else AllocOut.ok (st, k)) = AllocOut.ok (st, k)
                rw [if_neg h1, if_neg h2]
              rw [hstep]
              exact ih2 (fun q2 hq2 => hno q2 (List.mem_cons_of_mem _ hq2))
        have hstep : routeStepAlloc (fun _ => false) ind (.ok (st, k)) c = .ok (st, k) := by
          show (if 0 ≤ ind c.1 c.2 then
            (square c).foldl (innerStepAlloc (fun _ => false) ind c) (AllocOut.ok (st, k))
            else AllocOut.ok (st, k)) = AllocOut.ok (st, k)
          rw [if_pos hc]
          exact hinner (square c) (fun q2 hq2 hcon => hcq ⟨q2, hq2, hcon⟩)
        rw [hstep]
        apply ih
        rcases List.mem_cons.mp hp with h | h
        · subst h
          exact absurd ⟨q, hq, hqp, hqind⟩ hcq
        · exact ⟨p, h, hpind, q, hq, hqp, hqind⟩
    · have hstep : routeStepAlloc (fun _ => false) ind (.ok (st, k)) c = .ok (st, k) := by
        show (if 0 ≤ ind c.1 c.2 then
          (square c).foldl (innerStepAlloc (fun _ => false) ind c) (AllocOut.ok (st, k))
          else AllocOut.ok (st, k)) = AllocOut.ok (st, k)
        rw [if_neg hc]
      rw [hstep]
      apply ih
      rcases List.mem_cons.mp hp with h | h
      · exact absurd (h ▸ hpind) hc
      · exact ⟨p, h, hpind, q, hq, hqp, hqind⟩

/-- C8 (amended): neither `init_stops` nor `init_routes` checks any `realloc`
result; under an allocation oracle that fails, the code continues into the
member write through the returned null pointer (undefined behavior, modelled
`nullDeref`) instead of producing any error result — the functions return
`void`, so no error can reach the caller. -/
theorem claim_C8 (m : Grid) (hne : oc m ≠ []) :
    init_stopsAlloc (fun _ => false) m = AllocOut.nullDeref ∧
    (builtRoutes m ≠ [] →
      init_routesAlloc (fun _ => false) (init_stops m).1 (init_stops m).2 =
        AllocOut.nullDeref) := by
  constructor
  · rw [init_stopsAlloc]
    apply stopsAlloc_hits
    obtain ⟨p, hp⟩ := List.exists_mem_of_ne_nil (oc m) hne
    obtain ⟨hpi, hpo⟩ := mem_oc.mp hp
    exact ⟨p, hpi, hpo⟩
  · intro hr
    rw [init_routesAlloc]
    apply routesAlloc_hits
    obtain ⟨e, he⟩ := List.exists_mem_of_ne_nil _ hr
    rw [builtRoutes_eq, mem_routesSpec] at he
    obtain ⟨p, q, hp, hq, hneq, hsq, _⟩ := he
    refine ⟨p, (mem_oc.mp hp).1, ?_, q, hsq, hneq, ?_⟩
    · obtain ⟨p1, p2⟩ := p
      exact (ind_nonneg_iff m p1 p2).mpr hp
    · obtain ⟨q1, q2⟩ := q
      exact (ind_nonneg_iff m q1 q2).mpr hq

/-- C8 as stated is false on the code: at a concrete grid, with the (first)
allocation failing, both construction functions run into the null-pointer
write (`nullDeref`) — the failure is not reported to the caller as any kind
of result (the outcome is not an `ok` value carrying an error indication;
the functions return `void`). -/
theorem claim_C8_counterexample :
    init_stopsAlloc (fun _ => false) gridOne = AllocOut.nullDeref ∧
    init_routesAlloc (fun _ => false) (init_stops gridTwo).1 (init_stops gridTwo).2 =
      AllocOut.nullDeref := by
  constructor
  · rfl
  · rfl

/-- C2 (code bug): on a grid where the search succeeds, `find_path` does find
the path, but because main.c passes its `path` pointer (NULL) *by value* (the
parameter is `int *`, not `int **`), main's own `path` variable is still NULL
afterwards, and main's success branch dereferences it (`stops[path[i]]`):
undefined behavior, modelled as `none`.  The path is not made available to
the caller through the `path` parameter. -/
theorem claim_C2_bug :
    find_path (builtStops gridOne) (builtRoutes gridOne) = some [0] ∧
    mainModel gridOne = none := ⟨rfl, rfl⟩

/-!
## Witnesses: the claim theorems applied at concrete grids
-/

theorem claim_C3_witness :
    oc gridOne ≠ [] ∧
    ((init_stops gridOne).1.length = (oc gridOne).length ∧
    ∀ i (hi : i < (oc gridOne).length),
      ((init_stops gridOne).1.get ⟨i, by rw [init_stops_length]; exact hi⟩).row =
        (((oc gridOne).get ⟨i, hi⟩).1 : Int) ∧
      ((init_stops gridOne).1.get ⟨i, by rw [init_stops_length]; exact hi⟩).col =
        (((oc gridOne).get ⟨i, hi⟩).2 : Int)) :=
  ⟨by decide, claim_C3 gridOne (by decide)⟩

theorem claim_C4_witness :
    ((1, 1) ∈ oc gridTwo ∧ (1, 2) ∈ oc gridTwo ∧ adj8 (1, 1) (1, 2)) ∧
    ∃ e ∈ builtRoutes gridTwo, e.x = ocIdx gridTwo (1, 1) ∧ e.y = ocIdx gridTwo (1, 2) ∧
      dval e = eDist (1, 1) (1, 2) ∧
      (((1, 1) : Nat × Nat).1 = ((1, 2) : Nat × Nat).1 ∨
        ((1, 1) : Nat × Nat).2 = ((1, 2) : Nat × Nat).2 → dval e = 1) ∧
      (¬(((1, 1) : Nat × Nat).1 = ((1, 2) : Nat × Nat).1 ∨
        ((1, 1) : Nat × Nat).2 = ((1, 2) : Nat × Nat).2) → dval e = Real.sqrt 2) :=
  ⟨⟨by decide, by decide, by unfold adj8; exact ⟨by decide, by decide, by decide⟩⟩,
    claim_C4 gridTwo (by decide) (by decide)
      (by unfold adj8; exact ⟨by decide, by decide, by decide⟩)⟩

theorem claim_C5_witness :
    oc gridTwo ≠ [] ∧
    ((∀ i (hi : i < (oc gridTwo).length),
      hval ((init_stops gridTwo).1.get ⟨i, by rw [init_stops_length]; exact hi⟩) =
        eDist ((oc gridTwo).get ⟨i, hi⟩) (goalCell gridTwo)) ∧
    (init_routes (init_stops gridTwo).1 (init_stops gridTwo).2).1.map Stop.h2 =
      (init_stops gridTwo).1.map Stop.h2) :=
  ⟨by decide, claim_C5 gridTwo (by decide)⟩

theorem claim_C6_witness :
    ((1, 1) ∈ oc gridTwo →
      (init_stops gridTwo).2 1 1 = (ocIdx gridTwo (1, 1) : Int) ∧
      ocIdx gridTwo (1, 1) < (oc gridTwo).length) ∧
    ((0, 0) ∉ oc gridTwo → (init_stops gridTwo).2 0 0 = -1) ∧
    (∀ e ∈ builtRoutes gridTwo, ∃ p q, p ∈ oc gridTwo ∧ q ∈ oc gridTwo ∧ adj8 p q ∧
      e.x = ocIdx gridTwo p ∧ e.y = ocIdx gridTwo q) :=
  ⟨((claim_C6 gridTwo).1 (1, 1)).1,
   ((claim_C6 gridTwo).1 (0, 0)).2,
   (claim_C6 gridTwo).2⟩

theorem claim_C7_witness :
    oc (fun _ _ => 1) = [] ∧
    (init_stopsChecked (fun _ _ => 1) = some ([], (init_stops (fun _ _ => 1)).2) ∧
    init_routesChecked (init_stops (fun _ _ => 1)).1 (init_stops (fun _ _ => 1)).2 =
      some ((init_stops (fun _ _ => 1)).1, []) ∧
    (init_stops (fun _ _ => 1)).1 = [] ∧
    find_path (builtStops (fun _ _ => 1)) (builtRoutes (fun _ _ => 1)) = none ∧
    mainModel (fun _ _ => 1) = some MainOut.impossible) :=
  ⟨by decide, claim_C7 (fun _ _ => 1) (by decide)⟩

theorem claim_C8_witness :
    oc gridTwo ≠ [] ∧ builtRoutes gridTwo ≠ [] ∧
    init_stopsAlloc (fun _ => false) gridTwo = AllocOut.nullDeref ∧
    init_routesAlloc (fun _ => false) (init_stops gridTwo).1 (init_stops gridTwo).2 =
      AllocOut.nullDeref :=
  ⟨by decide, by decide, (claim_C8 gridTwo (by decide)).1,
    (claim_C8 gridTwo (by decide)).2 (by decide)⟩

theorem claim_C9_witness :
    ((⟨1, 1, [0], none, 1, -1⟩ : Stop) ∈
      (init_routes (init_stops gridTwo).1 (init_stops gridTwo).2).1) ∧
    (⟨1, 1, [0], none, 1, -1⟩ : Stop).g = none ∧
    (⟨1, 1, [0], none, 1, -1⟩ : Stop).from_ = -1 := by
  have hlist : (init_routes (init_stops gridTwo).1 (init_stops gridTwo).2).1 =
      [⟨1, 1, [0], none, 1, -1⟩, ⟨2, 1, [1], none, 0, -1⟩] := rfl
  have hmem : (⟨1, 1, [0], none, 1, -1⟩ : Stop) ∈
      (init_routes (init_stops gridTwo).1 (init_stops gridTwo).2).1 := by
    rw [hlist]
    exact List.mem_cons_self _ _
  exact ⟨hmem, claim_C9 gridTwo _ hmem⟩

theorem claim_C10_witness :
    (builtStops gridTwo)[0]? = some (⟨1, 1, [0], none, 1, -1⟩ : Stop) ∧
    ((⟨1, 1, [0], none, 1, -1⟩ : Stop).n = nSpec (builtRoutes gridTwo) 0 ∧
    (∀ t ∈ (⟨1, 1, [0], none, 1, -1⟩ : Stop).n, t < (builtRoutes gridTwo).length) ∧
    (⟨1, 1, [0], none, 1, -1⟩ : Stop).n.Sorted (· < ·) ∧
    (⟨1, 1, [0], none, 1, -1⟩ : Stop).n.length ≤ 8) :=
  ⟨rfl, claim_C10 gridTwo 0 _ rfl⟩

/-!
## Correctness of the modelled A* engine

The development is generic over the route table `routes`, the per-node
outgoing lists `adj`, the heuristic `h` and the node count `n`, under the
hypotheses that hold for every built graph: positive weights, a consistent
heuristic, in-range endpoints, and `adj` agreeing with the route table.
-/

theorem pathCost_nil : pathCost [] = 0 := by simp [pathCost]

theorem pathCost_cons (e : Route) (es : List Route) :
    pathCost (e :: es) = dval e + pathCost es := by simp [pathCost]

theorem pathCost_append_single (es : List Route) (e : Route) :
    pathCost (es ++ [e]) = pathCost es + dval e := by simp [pathCost]

theorem edgePath_mem {routes : List Route} :
    ∀ {a b : Nat} {es : List Route}, EdgePath routes a b es → ∀ e ∈ es, e ∈ routes := by
  intro a b es hp
  induction hp with
  | nil v => intro e he; cases he
  | cons he tail ih =>
    intro e2 he2
    rcases List.mem_cons.mp he2 with h | h
    · exact h ▸ he
    · exact ih e2 h

theorem pathCost_nonneg {routes : List Route} (hw : ∀ e ∈ routes, 0 < dval e) :
    ∀ {a b : Nat} {es : List Route}, EdgePath routes a b es → 0 ≤ pathCost es := by
  intro a b es hp
  induction hp with
  | nil v => rw [pathCost_nil]
  | cons he tail ih =>
    rw [pathCost_cons]
    have := hw _ he
    linarith

theorem edgePath_append {routes : List Route} {e : Route} (he : e ∈ routes) :
    ∀ {a b : Nat} {es : List Route}, EdgePath routes a b es → e.x = b →
    EdgePath routes a e.y (es ++ [e]) := by
  intro a b es hp
  induction hp with
  | nil v =>
    intro hx
    subst hx
    exact EdgePath.cons he (EdgePath.nil _)
  | cons he2 tail ih =>
    intro hx
    exact EdgePath.cons he2 (ih hx)

theorem cons_telescope {routes : List Route} {h : Nat → ℝ}
    (hcons : ∀ e ∈ routes, h e.x ≤ dval e + h e.y) :
    ∀ {a b : Nat} {es : List Route}, EdgePath routes a b es →
      h a ≤ pathCost es + h b := by
  intro a b es hp
  induction hp with
  | nil v => rw [pathCost_nil]; linarith
  | cons he tail ih =>
    rw [pathCost_cons]
    have h1 := hcons _ he
    linarith

theorem relax_cases (routes : List Route) (u : Nat) (st : SState) (t : Nat) :
    relax routes u st t = st ∨
    ∃ e gu, routes[t]? = some e ∧ e.y ∉ st.cl ∧ st.g u = some gu ∧
      (∀ gy, st.g e.y = some gy → gu + dval e < gy) ∧
      relax routes u st t =
        { g := fun v => if v = e.y then some (gu + dval e) else st.g v,
          pre := fun v => if v = e.y then some u else st.pre v,
          fr := st.fr.insert e.y,
          cl := st.cl } := by
  cases h1 : routes[t]? with
  | none =>
    left
    simp [relax, h1]
  | some e =>
    by_cases h2 : e.y ∈ st.cl
    · left
      simp [relax, h1, h2]
    · cases h3 : st.g u with
      | none =>
        left
        simp [relax, h1, h2, h3]
      | some gu =>
        cases h4 : st.g e.y with
        | none =>
          right
          refine ⟨e, gu, rfl, h2, rfl, ?_, ?_⟩
          · intro gy hgy
            rw [h4] at hgy
            cases hgy
          · simp [relax, h1, h2, h3, h4]
        | some gy =>
          by_cases h5 : gu + dval e < gy
          · right
            refine ⟨e, gu, rfl, h2, rfl, ?_, ?_⟩
            · intro gy2 hgy2
              rw [h4] at hgy2
              exact (Option.some.inj hgy2) ▸ h5
            · simp [relax, h1, h2, h3, h4, h5]
          · left
            simp [relax, h1, h2, h3, h4, h5]

theorem rebuild_sound {routes : List Route} {n : Nat}
    (hw : ∀ e ∈ routes, 0 < dval e)
    {st : SState} (hcore : AInvCore routes n st) :
    ∀ (k : Nat) (v : Nat) (gv : ℝ), st.g v = some gv →
      {w : Nat | w < n ∧ ∃ gw, st.g w = some gw ∧ gw < gv}.ncard ≤ k →
      ∃ es p, EdgePath routes 0 v es ∧ pathCost es = gv ∧
        (∀ fuel, k < fuel → rebuild st.pre fuel v = some p) ∧
        p.reverse = 0 :: es.map Route.y := by
  intro k
  induction k with
  | zero =>
    intro v gv hgv hcard
    cases hpre : st.pre v with
    | none =>
      have hv0 : v = 0 := by
        by_contra hv
        exact (hcore.preFin v hv (by rw [hgv]; exact Option.noConfusion)) hpre
      subst hv0
      have hgv0 : gv = 0 := by
        have := hcore.gStart
        rw [hgv] at this
        exact Option.some.inj this
      refine ⟨[], [0], EdgePath.nil 0, by rw [pathCost_nil, hgv0], ?_, by simp⟩
      intro fuel hfuel
      obtain ⟨f, rfl⟩ : ∃ f, fuel = f + 1 := ⟨fuel - 1, by omega⟩
      show (match st.pre 0 with
        | none => some [0]
        | some u => (rebuild st.pre f u).map fun l => 0 :: l) = some [0]
      rw [hpre]
    | some u =>
      exfalso
      obtain ⟨hucl, e, he, hex, hey, gu, hgu, hgv2⟩ := hcore.preOk v u hpre
      rw [hgv] at hgv2
      have hgveq : gv = gu + dval e := Option.some.inj hgv2
      have hun : u < n := hcore.gBound u (by rw [hgu]; exact Option.noConfusion)
      have humem : u ∈ {w : Nat | w < n ∧ ∃ gw, st.g w = some gw ∧ gw < gv} := by
        refine ⟨hun, gu, hgu, ?_⟩
        have := hw e he
        rw [hgveq]
        linarith
      have hfin : {w : Nat | w < n ∧ ∃ gw, st.g w = some gw ∧ gw < gv}.Finite :=
        (Set.finite_Iio n).subset (fun w hww => hww.1)
      have := (Set.ncard_pos hfin).mpr ⟨u, humem⟩
      omega
  | succ k ih =>
    intro v gv hgv hcard
    cases hpre : st.pre v with
    | none =>
      have hv0 : v = 0 := by
        by_contra hv
        exact (hcore.preFin v hv (by rw [hgv]; exact Option.noConfusion)) hpre
      subst hv0
      have hgv0 : gv = 0 := by
        have := hcore.gStart
        rw [hgv] at this
        exact Option.some.inj this
      refine ⟨[], [0], EdgePath.nil 0, by rw [pathCost_nil, hgv0], ?_, by simp⟩
      intro fuel hfuel
      obtain ⟨f, rfl⟩ : ∃ f, fuel = f + 1 := ⟨fuel - 1, by omega⟩
      show (match st.pre 0 with
        | none => some [0]
        | some u => (rebuild st.pre f u).map fun l => 0 :: l) = some [0]
      rw [hpre]
    | some u =>
      obtain ⟨hucl, e, he, hex, hey, gu, hgu, hgv2⟩ := hcore.preOk v u hpre
      rw [hgv] at hgv2
      have hgveq : gv = gu + dval e := Option.some.inj hgv2
      have hgult : gu < gv := by
        have := hw e he
        rw [hgveq]
        linarith
      have hun : u < n := hcore.gBound u (by rw [hgu]; exact Option.noConfusion)
      have hsub : {w : Nat | w < n ∧ ∃ gw, st.g w = some gw ∧ gw < gu} ⊆
          {w : Nat | w < n ∧ ∃ gw, st.g w = some gw ∧ gw < gv} := by
        rintro w ⟨hwn, gw, hgw, hlt⟩
        exact ⟨hwn, gw, hgw, lt_trans hlt hgult⟩
      have humem : u ∈ {w : Nat | w < n ∧ ∃ gw, st.g w = some gw ∧ gw < gv} :=
        ⟨hun, gu, hgu, hgult⟩
      have hunotmem : u ∉ {w : Nat | w < n ∧ ∃ gw, st.g w = some gw ∧ gw < gu} := by
        rintro ⟨_, gw, hgw, hlt⟩
        rw [hgu] at hgw
        rw [Option.some.inj hgw] at hlt
        exact lt_irrefl _ hlt
      have hfinv : {w : Nat | w < n ∧ ∃ gw, st.g w = some gw ∧ gw < gv}.Finite :=
        (Set.finite_Iio n).subset (fun w hww => hww.1)
      have hss : {w : Nat | w < n ∧ ∃ gw, st.g w = some gw ∧ gw < gu} ⊂
          {w : Nat | w < n ∧ ∃ gw, st.g w = some gw ∧ gw < gv} := by
        rw [Set.ssubset_def]
        exact ⟨hsub, fun hsup => hunotmem (hsup humem)⟩
      have hlt2 := Set.ncard_lt_ncard hss hfinv
      obtain ⟨es1, p1, hpath1, hcost1, hreb1, hrev1⟩ := ih u gu hgu (by omega)
      refine ⟨es1 ++ [e], v :: p1, ?_, ?_, ?_, ?_⟩
      · have := edgePath_append he hpath1 hex
        rw [hey] at this
        exact this
      · rw [pathCost_append_single, hcost1, hgveq]
      · intro fuel hfuel
        obtain ⟨f, rfl⟩ : ∃ f, fuel = f + 1 := ⟨fuel - 1, by omega⟩
        show (match st.pre v with
          | none => some [v]
          | some u => (rebuild st.pre f u).map fun l => v :: l) = some (v :: p1)
        rw [hpre]
        show Option.map (fun l => v :: l) (rebuild st.pre f u) = some (v :: p1)
        rw [hreb1 f (by omega)]
        rfl
      · rw [List.reverse_cons, hrev1, List.map_append]
        simp [hey]

theorem gSound {routes : List Route} {n : Nat} (hw : ∀ e ∈ routes, 0 < dval e)
    {st : SState} (hcore : AInvCore routes n st) {v : Nat} {gv : ℝ}
    (hgv : st.g v = some gv) :
    ∃ es, EdgePath routes 0 v es ∧ pathCost es = gv := by
  obtain ⟨es, p, h1, h2, _, _⟩ := rebuild_sound hw hcore
    {w : Nat | w < n ∧ ∃ gw, st.g w = some gw ∧ gw < gv}.ncard v gv hgv le_rfl
  exact ⟨es, h1, h2⟩

theorem select_min {h : Nat → ℝ} {st : SState} {u : Nat}
    (hsel : st.fr.argmin (fkey h st) = some u) :
    u ∈ st.fr ∧ ∀ v ∈ st.fr, ∀ gu gv, st.g u = some gu → st.g v = some gv →
      gu + h u ≤ gv + h v := by
  have hmem : u ∈ st.fr := List.argmin_mem (Option.mem_def.mpr hsel)
  refine ⟨hmem, ?_⟩
  intro v hv gu gv hgu hgv
  have hle := List.le_of_mem_argmin hv (Option.mem_def.mpr hsel)
  rw [fkey, fkey] at hle
  rcases (Prod.Lex.le_iff _ _).mp hle with hlt | ⟨heq, _⟩
  · have h2 : (st.g u).getD 0 + h u < (st.g v).getD 0 + h v := hlt
    rw [hgu, hgv] at h2
    exact le_of_lt h2
  · have h2 : (st.g u).getD 0 + h u = (st.g v).getD 0 + h v := heq
    rw [hgu, hgv] at h2
    exact le_of_eq h2

theorem selected_le_paths {routes : List Route} {n : Nat} {h : Nat → ℝ}
    (hcons : ∀ e ∈ routes, h e.x ≤ dval e + h e.y)
    {st : SState} (hinv : AInv routes n st)
    {u : Nat} (hsel : st.fr.argmin (fkey h st) = some u)
    {gu : ℝ} (hgu : st.g u = some gu) :
    ∀ es, EdgePath routes 0 u es → gu ≤ pathCost es := by
  have hmin := (select_min hsel).2
  have hc := hinv.toAInvCore
  have Q : ∀ (es : List Route) (a : Nat) (ga acc : ℝ),
      EdgePath routes a u es → st.g a = some ga → ga ≤ acc →
      gu ≤ acc + pathCost es := by
    intro es
    induction es with
    | nil =>
      intro a ga acc hp hga hle
      cases hp
      rw [pathCost_nil]
      rw [hgu] at hga
      have := Option.some.inj hga
      linarith
    | cons e es ih =>
      intro a ga acc hp hga hle
      cases hp with
      | cons he tail =>
        rw [pathCost_cons]
        by_cases hcl : e.x ∈ st.cl
        · obtain ⟨gx, gy, hgx, hgy, hbound⟩ := hinv.clRelaxed e.x hcl e he rfl
          rw [hga] at hgx
          have hgxa : ga = gx := Option.some.inj hgx
          have hrec := ih e.y gy (acc + dval e) tail hgy (by linarith)
          linarith
        · have hfr : e.x ∈ st.fr := by
            rcases hc.cover e.x (by rw [hga]; exact Option.noConfusion) with h1 | h1
            · exact absurd h1 hcl
            · exact h1
          have hmin2 := hmin e.x hfr gu ga hgu hga
          have htel := cons_telescope hcons (EdgePath.cons he tail)
          rw [pathCost_cons] at htel
          linarith
  intro es hp
  have := Q es 0 0 0 hp hc.gStart le_rfl
  linarith

theorem relax_progress {routes : List Route} {n : Nat}
    (hw : ∀ e ∈ routes, 0 < dval e)
    {u : Nat} {st : SState} (hu : u ∈ st.cl) (hcore : AInvCore routes n st)
    (t : Nat) {e : Route} (het : routes[t]? = some e) (hex : e.x = u) :
    ∃ gu2 gy, (relax routes u st t).g u = some gu2 ∧
      (relax routes u st t).g e.y = some gy ∧ gy ≤ gu2 + dval e := by
  have hemem : e ∈ routes := by
    obtain ⟨hlt, rfl⟩ := List.getElem?_eq_some.mp het
    exact List.getElem_mem hlt
  obtain ⟨gu2, hgu2⟩ := Option.ne_none_iff_exists'.mp (hcore.clFin u hu)
  by_cases hcl : e.y ∈ st.cl
  · have hres : relax routes u st t = st := by
      simp [relax, het, hcl]
    obtain ⟨gy, hgy⟩ := Option.ne_none_iff_exists'.mp (hcore.clFin e.y hcl)
    obtain ⟨es, hpath, hcost⟩ := gSound hw hcore hgu2
    have hpath2 := edgePath_append hemem hpath hex
    have hbound := hcore.clOpt e.y hcl gy hgy _ hpath2
    rw [pathCost_append_single, hcost] at hbound
    rw [hres]
    exact ⟨gu2, gy, hgu2, hgy, hbound⟩
  · have huy : u ≠ e.y := fun hh => hcl (hh ▸ hu)
    cases hgy : st.g e.y with
    | none =>
      refine ⟨gu2, gu2 + dval e, ?_, ?_, le_refl _⟩
      · simp only [relax, het, hcl, hgu2, hgy]
        simp [huy, hgu2]
      · simp only [relax, het, hcl, hgu2, hgy]
        simp
    | some gy =>
      by_cases h5 : gu2 + dval e < gy
      · refine ⟨gu2, gu2 + dval e, ?_, ?_, le_refl _⟩
        · simp only [relax, het, hcl, hgu2, hgy]
          simp [h5, huy, hgu2]
        · simp only [relax, het, hcl, hgu2, hgy]
          simp [h5]
      · have hres : relax routes u st t = st := by
          simp [relax, het, hcl, hgu2, hgy, h5]
        rw [hres]
        exact ⟨gu2, gy, hgu2, hgy, by linarith⟩

theorem relax_preserves {routes : List Route} {n : Nat}
    (hw : ∀ e ∈ routes, 0 < dval e) (hidx : ∀ e ∈ routes, e.x < n ∧ e.y < n)
    {u : Nat} {st : SState} (hu : u ∈ st.cl) (hcore : AInvCore routes n st)
    (t : Nat) (hxt : ∀ e, routes[t]? = some e → e.x = u) :
    AInvCore routes n (relax routes u st t) ∧
    (relax routes u st t).cl = st.cl ∧
    (∀ v ∈ st.cl, (relax routes u st t).g v = st.g v) ∧
    (∀ v gy, st.g v = some gy →
      ∃ gy2, (relax routes u st t).g v = some gy2 ∧ gy2 ≤ gy) := by
  rcases relax_cases routes u st t with hres | ⟨e, gu2, het, hcl, hgu2, himp, hres⟩
  · rw [hres]
    exact ⟨hcore, rfl, fun v _ => rfl, fun v gy hgy => ⟨gy, hgy, le_rfl⟩⟩
  · have hemem : e ∈ routes := by
      obtain ⟨hlt, rfl⟩ := List.getElem?_eq_some.mp het
      exact List.getElem_mem hlt
    have hex : e.x = u := hxt e het
    have hld : 0 < dval e := hw e hemem
    have hgu2nn : 0 ≤ gu2 := hcore.gNonneg u gu2 hgu2
    have hey0 : e.y ≠ 0 := by
      intro h0
      have h1 : st.g e.y = some 0 := by rw [h0]; exact hcore.gStart
      have := himp 0 h1
      linarith
    have huy : u ≠ e.y := fun hh => hcl (hh ▸ hu)
    rw [hres]
    refine ⟨?_, rfl, ?_, ?_⟩
    · constructor
      · intro v x hx
        simp only [] at hx
        by_cases hv : v = e.y
        · rw [if_pos hv] at hx
          rw [← Option.some.inj hx]
          linarith
        · rw [if_neg hv] at hx
          exact hcore.gNonneg v x hx
      · show (if 0 = e.y then some (gu2 + dval e) else st.g 0) = some 0
        rw [if_neg (fun hh => hey0 hh.symm)]
        exact hcore.gStart
      · show (if 0 = e.y then some u else st.pre 0) = none
        rw [if_neg (fun hh => hey0 hh.symm)]
        exact hcore.preStart
      · intro v u2 hpre
        simp only [] at hpre
        by_cases hv : v = e.y
        · rw [if_pos hv] at hpre
          have hu2 : u2 = u := (Option.some.inj hpre).symm
          subst hu2
          refine ⟨hu, e, hemem, hex, hv.symm, gu2, ?_, ?_⟩
          · show (if u2 = e.y then some (gu2 + dval e) else st.g u2) = some gu2
            rw [if_neg huy]
            exact hgu2
          · show (if v = e.y then some (gu2 + dval e) else st.g v) = some (gu2 + dval e)
            rw [if_pos hv]
        · rw [if_neg hv] at hpre
          obtain ⟨hu2cl, e2, he2, hex2, hey2, gu3, hgu3, hgv3⟩ := hcore.preOk v u2 hpre
          have hu2y : u2 ≠ e.y := fun hh => hcl (hh ▸ hu2cl)
          refine ⟨hu2cl, e2, he2, hex2, hey2, gu3, ?_, ?_⟩
          · show (if u2 = e.y then some (gu2 + dval e) else st.g u2) = some gu3
            rw [if_neg hu2y]
            exact hgu3
          · show (if v = e.y then some (gu2 + dval e) else st.g v) = some (gu3 + dval e2)
            rw [if_neg hv]
            exact hgv3
      · intro v hv0 hgv
        simp only [] at hgv ⊢
        by_cases hv : v = e.y
        · rw [if_pos hv]
          exact Option.noConfusion
        · rw [if_neg hv] at hgv ⊢
          exact hcore.preFin v hv0 hgv
      · intro u2 hu2
        show (if u2 = e.y then some (gu2 + dval e) else st.g u2) ≠ none
        by_cases hv : u2 = e.y
        · rw [if_pos hv]
          exact Option.noConfusion
        · rw [if_neg hv]
          exact hcore.clFin u2 hu2
      · intro v hv
        show (if v = e.y then some (gu2 + dval e) else st.g v) ≠ none
        by_cases hvy : v = e.y
        · rw [if_pos hvy]
          exact Option.noConfusion
        · rw [if_neg hvy]
          exact hcore.frFin v (by
            rcases List.mem_insert_iff.mp hv with h | h
            · exact absurd h hvy
            · exact h)
      · intro v hgv
        by_cases hvy : v = e.y
        · right
          rw [hvy]
          exact List.mem_insert_self _ _
        · have : st.g v ≠ none := by
            simp only [if_neg hvy] at hgv
            exact hgv
          rcases hcore.cover v this with h | h
          · exact Or.inl h
          · exact Or.inr (List.mem_insert_of_mem h)
      · intro v hv
        rcases List.mem_insert_iff.mp hv with h | h
        · rw [h]
          exact hcl
        · exact hcore.disj v h
      · exact hcore.frNodup.insert
      · intro v hgv
        by_cases hvy : v = e.y
        · rw [hvy]
          exact (hidx e hemem).2
        · apply hcore.gBound
          simp only [if_neg hvy] at hgv
          exact hgv
      · intro u2 hu2 gu3 hgu3 es hes
        have hu2y : u2 ≠ e.y := fun hh => hcl (hh ▸ hu2)
        simp only [if_neg hu2y] at hgu3
        exact hcore.clOpt u2 hu2 gu3 hgu3 es hes
    · intro v hv
      have hvy : v ≠ e.y := fun hh => hcl (hh ▸ hv)
      show (if v = e.y then some (gu2 + dval e) else st.g v) = st.g v
      rw [if_neg hvy]
    · intro v gy hgy
      by_cases hvy : v = e.y
      · refine ⟨gu2 + dval e, ?_, ?_⟩
        · show (if v = e.y then some (gu2 + dval e) else st.g v) = some (gu2 + dval e)
          rw [if_pos hvy]
        · have := himp gy (hvy ▸ hgy)
          linarith
      · refine ⟨gy, ?_, le_rfl⟩
        show (if v = e.y then some (gu2 + dval e) else st.g v) = some gy
        rw [if_neg hvy]
        exact hgy

theorem ClRelaxedOn_mono {routes : List Route} {C : List Nat} {st st2 : SState}
    (hC : ClRelaxedOn routes C st)
    (hCcl : ∀ v ∈ C, v ∈ st.cl)
    (hfrozen : ∀ v ∈ st.cl, st2.g v = st.g v)
    (hmono : ∀ v gy, st.g v = some gy → ∃ gy2, st2.g v = some gy2 ∧ gy2 ≤ gy) :
    ClRelaxedOn routes C st2 := by
  intro u2 hu2 e he hex
  obtain ⟨gu, gy, hgu, hgy, hb⟩ := hC u2 hu2 e he hex
  obtain ⟨gy2, hgy2, hle⟩ := hmono e.y gy hgy
  refine ⟨gu, gy2, ?_, hgy2, by linarith⟩
  rw [hfrozen u2 (hCcl u2 hu2), hgu]

theorem relaxFold_preserves {routes : List Route} {n : Nat}
    (hw : ∀ e ∈ routes, 0 < dval e) (hidx : ∀ e ∈ routes, e.x < n ∧ e.y < n)
    {u : Nat} :
    ∀ (ts : List Nat) {st : SState}, u ∈ st.cl → AInvCore routes n st →
      (∀ t ∈ ts, ∀ e, routes[t]? = some e → e.x = u) →
      AInvCore routes n (ts.foldl (relax routes u) st) ∧
      (ts.foldl (relax routes u) st).cl = st.cl ∧
      (∀ v ∈ st.cl, (ts.foldl (relax routes u) st).g v = st.g v) ∧
      (∀ v gy, st.g v = some gy →
        ∃ gy2, (ts.foldl (relax routes u) st).g v = some gy2 ∧ gy2 ≤ gy) ∧
      (∀ t ∈ ts, ∀ e, routes[t]? = some e → e.x = u →
        ∃ gu2 gy, (ts.foldl (relax routes u) st).g u = some gu2 ∧
          (ts.foldl (relax routes u) st).g e.y = some gy ∧ gy ≤ gu2 + dval e) := by
  intro ts
  induction ts with
  | nil =>
    intro st hu hcore _
    exact ⟨hcore, rfl, fun v _ => rfl, fun v gy hgy => ⟨gy, hgy, le_rfl⟩,
      fun t ht => absurd ht (List.not_mem_nil t)⟩
  | cons t ts ih =>
    intro st hu hcore hxts
    rw [List.foldl_cons]
    have hxt : ∀ e, routes[t]? = some e → e.x = u :=
      fun e he => hxts t (List.mem_cons_self _ _) e he
    obtain ⟨hcore1, hcl1, hfro1, hmono1⟩ := relax_preserves hw hidx hu hcore t hxt
    have hu1 : u ∈ (relax routes u st t).cl := by rw [hcl1]; exact hu
    obtain ⟨hcore2, hcl2, hfro2, hmono2, hcond2⟩ := ih hu1 hcore1
      (fun t2 ht2 e he => hxts t2 (List.mem_cons_of_mem _ ht2) e he)
    refine ⟨hcore2, by rw [hcl2, hcl1], ?_, ?_, ?_⟩
    · intro v hv
      rw [hfro2 v (by rw [hcl1]; exact hv), hfro1 v hv]
    · intro v gy hgy
      obtain ⟨gy1, hgy1, hle1⟩ := hmono1 v gy hgy
      obtain ⟨gy2, hgy2, hle2⟩ := hmono2 v gy1 hgy1
      exact ⟨gy2, hgy2, by linarith⟩
    · intro t2 ht2 e he hex
      rcases List.mem_cons.mp ht2 with h | h
      · subst h
        obtain ⟨gu2, gy, hgu2, hgy, hb⟩ := relax_progress hw hu hcore t2 he hex
        obtain ⟨gy2, hgy2, hle2⟩ := hmono2 e.y gy hgy
        refine ⟨gu2, gy2, ?_, hgy2, by linarith⟩
        rw [hfro2 u hu1, hgu2]
      · exact hcond2 t2 h e he hex

theorem expand_preserves {routes : List Route} {adj : Nat → List Nat} {n : Nat}
    {h : Nat → ℝ}
    (hw : ∀ e ∈ routes, 0 < dval e)
    (hidx : ∀ e ∈ routes, e.x < n ∧ e.y < n)
    (hcons : ∀ e ∈ routes, h e.x ≤ dval e + h e.y)
    (hadj1 : ∀ u t e, t ∈ adj u → routes[t]? = some e → e.x = u)
    (hadj2 : ∀ t e, routes[t]? = some e → t ∈ adj e.x)
    {st : SState} (hinv : AInv routes n st) {u : Nat}
    (hsel : st.fr.argmin (fkey h st) = some u) :
    AInv routes n (expand adj routes u st) := by
  have hc := hinv.toAInvCore
  have hufr : u ∈ st.fr := (select_min hsel).1
  have hunotcl : u ∉ st.cl := hc.disj u hufr
  obtain ⟨gu, hgu⟩ := Option.ne_none_iff_exists'.mp (hc.frFin u hufr)
  have huopt := selected_le_paths hcons hinv hsel hgu
  have hcore1 : AInvCore routes n { st with fr := st.fr.erase u, cl := u :: st.cl } := by
    constructor
    · exact hc.gNonneg
    · exact hc.gStart
    · exact hc.preStart
    · intro v u2 hpre
      obtain ⟨hcl2, rest⟩ := hc.preOk v u2 hpre
      exact ⟨List.mem_cons_of_mem _ hcl2, rest⟩
    · exact hc.preFin
    · intro u2 hu2
      rcases List.mem_cons.mp hu2 with hh | hh
      · show st.g u2 ≠ none
        rw [hh, hgu]
        exact Option.noConfusion
      · exact hc.clFin u2 hh
    · intro v hv
      exact hc.frFin v (List.mem_of_mem_erase hv)
    · intro v hgv
      rcases hc.cover v hgv with hh | hh
      · exact Or.inl (List.mem_cons_of_mem _ hh)
      · by_cases hvu : v = u
        · exact Or.inl (by rw [hvu]; exact List.mem_cons_self _ _)
        · exact Or.inr ((List.mem_erase_of_ne hvu).mpr hh)
    · intro v hv
      have hvfr : v ∈ st.fr := List.mem_of_mem_erase hv
      have hvne : v ≠ u := by
        intro hh
        rw [hh] at hv
        exact hc.frNodup.not_mem_erase hv
      intro hvcl
      rcases List.mem_cons.mp hvcl with hh | hh
      · exact hvne hh
      · exact hc.disj v hvfr hh
    · exact hc.frNodup.erase _
    · exact hc.gBound
    · intro u2 hu2 gu3 hgu3 es hes
      rcases List.mem_cons.mp hu2 with hh | hh
      · subst hh
        have : gu3 = gu := by
          have h2 : st.g u2 = some gu3 := hgu3
          rw [hgu] at h2
          exact (Option.some.inj h2).symm
        rw [this]
        exact huopt es hes
      · exact hc.clOpt u2 hh gu3 hgu3 es hes
  have hClRel1 : ClRelaxedOn routes st.cl
      { st with fr := st.fr.erase u, cl := u :: st.cl } := hinv.clRelaxed
  have hu1 : u ∈ ({ st with fr := st.fr.erase u, cl := u :: st.cl } : SState).cl :=
    List.mem_cons_self _ _
  obtain ⟨hcoreF, hclF, hfroF, hmonoF, hcondF⟩ :=
    relaxFold_preserves hw hidx (adj u) hu1 hcore1 (fun t ht e he => hadj1 u t e ht he)
  have hexp : expand adj routes u st =
      List.foldl (relax routes u)
        { g := st.g, pre := st.pre, fr := st.fr.erase u, cl := u :: st.cl } (adj u) := rfl
  rw [hexp]
  refine ⟨hcoreF, ?_⟩
  intro u2 hu2 e he hex
  rw [hclF] at hu2
  rcases List.mem_cons.mp hu2 with hh | hh
  · -- u2 = u: use the fold's progress over all of adj u
    obtain ⟨⟨t, htl⟩, hget⟩ := List.get_of_mem he
    have het : routes[t]? = some e := by
      rw [List.getElem?_eq_getElem htl]
      rw [← hget]
      rfl
    have htadj : t ∈ adj u := by
      have := hadj2 t e het
      rw [hex, hh] at this
      exact this
    have hexu : e.x = u := by rw [hex, hh]
    obtain ⟨gu2, gy, hgu2, hgy, hb⟩ := hcondF t htadj e het hexu
    rw [hh]
    exact ⟨gu2, gy, hgu2, hgy, hb⟩
  · exact ClRelaxedOn_mono hClRel1 (fun v hv => List.mem_cons_of_mem _ hv)
      hfroF hmonoF u2 hh e he hex

theorem searchLoop_sound {routes : List Route} {adj : Nat → List Nat} {n : Nat}
    {h : Nat → ℝ} {goal : Nat}
    (hw : ∀ e ∈ routes, 0 < dval e)
    (hidx : ∀ e ∈ routes, e.x < n ∧ e.y < n)
    (hcons : ∀ e ∈ routes, h e.x ≤ dval e + h e.y)
    (hadj1 : ∀ u t e, t ∈ adj u → routes[t]? = some e → e.x = u)
    (hadj2 : ∀ t e, routes[t]? = some e → t ∈ adj e.x) :
    ∀ (fuel : Nat) (st : SState), AInv routes n st →
      ∀ p stF, searchLoop adj routes h goal n fuel st = some (p, stF) →
      ∃ es gg, EdgePath routes 0 goal es ∧ stF.g goal = some gg ∧ pathCost es = gg ∧
        p.reverse = 0 :: es.map Route.y ∧
        ∀ es2, EdgePath routes 0 goal es2 → gg ≤ pathCost es2 := by
  intro fuel
  induction fuel with
  | zero =>
    intro st _ p stF hrun
    exact Option.noConfusion hrun
  | succ fuel ih =>
    intro st hinv p stF hrun
    have hrun2 : (match st.fr.argmin (fkey h st) with
        | none => none
        | some u =>
          if u = goal then (rebuild st.pre n goal).map (fun p0 => (p0, st))
          else searchLoop adj routes h goal n fuel (expand adj routes u st)) =
        some (p, stF) := hrun
    cases hsel : st.fr.argmin (fkey h st) with
    | none =>
      rw [hsel] at hrun2
      exact Option.noConfusion hrun2
    | some u =>
      rw [hsel] at hrun2
      have hrun3 : (if u = goal then Option.map (fun p0 => (p0, st)) (rebuild st.pre n goal)
          else searchLoop adj routes h goal n fuel (expand adj routes u st)) =
          some (p, stF) := hrun2
      by_cases hg : u = goal
      · subst hg
        rw [if_pos rfl] at hrun3
        obtain ⟨p0, hreb, hps⟩ := Option.map_eq_some'.mp hrun3
        have hps2 : (p0, st) = (p, stF) := hps
        obtain ⟨hp0, hstF⟩ := Prod.mk.inj hps2
        have hc := hinv.toAInvCore
        have hufr : u ∈ st.fr := (select_min hsel).1
        obtain ⟨gu, hgu⟩ := Option.ne_none_iff_exists'.mp (hc.frFin u hufr)
        have hun : u < n := hc.gBound u (by rw [hgu]; exact Option.noConfusion)
        have hcard : {w : Nat | w < n ∧ ∃ gw, st.g w = some gw ∧ gw < gu}.ncard ≤ n - 1 := by
          have hsub : {w : Nat | w < n ∧ ∃ gw, st.g w = some gw ∧ gw < gu} ⊆
              Set.Iio n := fun w hww => hww.1
          have hss : {w : Nat | w < n ∧ ∃ gw, st.g w = some gw ∧ gw < gu} ⊂
              Set.Iio n := by
            rw [Set.ssubset_def]
            refine ⟨hsub, fun hsup => ?_⟩
            obtain ⟨_, gw, hgw, hlt⟩ := hsup (show u ∈ Set.Iio n from hun)
            rw [hgu] at hgw
            rw [Option.some.inj hgw] at hlt
            exact lt_irrefl _ hlt
          have hfin : (Set.Iio n).Finite := Set.finite_Iio n
          have := Set.ncard_lt_ncard hss hfin
          have hIio : (Set.Iio n).ncard = n := by
            rw [← Finset.coe_range, Set.ncard_coe_Finset, Finset.card_range]
          omega
        obtain ⟨es, p1, hpath, hcost, hrebAll, hrev⟩ :=
          rebuild_sound hw hc (n - 1) u gu hgu hcard
        have hn1 : n - 1 < n := by omega
        have hreb1 := hrebAll n hn1
        rw [hreb] at hreb1
        have hp1 : p1 = p0 := Option.some.inj hreb1.symm

        refine ⟨es, gu, hpath, ?_, hcost, ?_, ?_⟩
        · rw [← hstF]
          exact hgu
        · rw [← hp0, ← hp1]
          exact hrev
        · exact selected_le_paths hcons hinv hsel hgu
      · rw [if_neg hg] at hrun3
        exact ih (expand adj routes u st)
          (expand_preserves hw hidx hcons hadj1 hadj2 hinv hsel) p stF hrun3

/-!
## The built graph satisfies the engine's hypotheses
-/

theorem builtStops_length (m : Grid) : (builtStops m).length = (oc m).length :=
  stopsOK_length (builtStops_ok m)

theorem builtRoutes_shape (m : Grid) {e : Route} (he : e ∈ builtRoutes m) :
    ∃ p q, p ∈ oc m ∧ q ∈ oc m ∧ q ≠ p ∧
      ((p.1 : Int) - (q.1 : Int)).natAbs ≤ 1 ∧ ((p.2 : Int) - (q.2 : Int)).natAbs ≤ 1 ∧
      e = mkRoute m p q := by
  rw [builtRoutes_eq, mem_routesSpec] at he
  obtain ⟨p, q, hp, hq, hne, hsq, rfl⟩ := he
  obtain ⟨hb1, _, hb3, _⟩ := mem_interiorCoords.mp (mem_oc.mp hp).1
  obtain ⟨h1, h2⟩ := (mem_square_iff hb1 hb3).mp hsq
  exact ⟨p, q, hp, hq, hne, h1, h2, rfl⟩

theorem builtRoutes_dval_pos (m : Grid) : ∀ e ∈ builtRoutes m, 0 < dval e := by
  intro e he
  obtain ⟨p, q, hp, hq, hne, h1, h2, rfl⟩ := builtRoutes_shape m he
  rcases mkRoute_d2_cases hne h1 h2 with hd | hd
  · rw [dval, hd]
    rw [show (((1 : Int)) : ℝ) = 1 by norm_num, Real.sqrt_one]
    norm_num
  · rw [dval, hd]
    rw [show (((2 : Int)) : ℝ) = 2 by norm_num]
    exact Real.sqrt_pos.mpr (by norm_num)

theorem builtRoutes_idx (m : Grid) :
    ∀ e ∈ builtRoutes m, e.x < (builtStops m).length ∧ e.y < (builtStops m).length := by
  intro e he
  obtain ⟨p, q, hp, hq, _, _, _, rfl⟩ := builtRoutes_shape m he
  rw [builtStops_length]
  exact ⟨ocIdx_lt hp, ocIdx_lt hq⟩

theorem builtRoutes_cons (m : Grid) :
    ∀ e ∈ builtRoutes m,
      hfun (builtStops m) e.x ≤ dval e + hfun (builtStops m) e.y := by
  intro e he
  obtain ⟨p, q, hp, hq, _, _, _, rfl⟩ := builtRoutes_shape m he
  have h1 : hfun (builtStops m) (mkRoute m p q).x = eDist p (goalCell m) := hfun_built m hp
  have h2 : hfun (builtStops m) (mkRoute m p q).y = eDist q (goalCell m) := hfun_built m hq
  rw [h1, h2, dval_mkRoute]
  exact eDist_triangle p q (goalCell m)

theorem built_adj1 (m : Grid) :
    ∀ u t e, t ∈ stopAdj (builtStops m) u → (builtRoutes m)[t]? = some e → e.x = u := by
  intro u t e ht he
  rw [stopAdj] at ht
  cases hsu : (builtStops m)[u]? with
  | none =>
    rw [hsu] at ht
    cases ht
  | some s =>
    rw [hsu] at ht
    have hn := builtStops_NInv m u s hsu
    have ht2 : t ∈ s.n := ht
    rw [hn, nSpec, List.mem_filter] at ht2
    have := ht2.2
    rw [List.getD_eq_getElem?_getD, he, Option.getD_some] at this
    exact eq_of_beq this

theorem built_adj2 (m : Grid) :
    ∀ t e, (builtRoutes m)[t]? = some e → t ∈ stopAdj (builtStops m) e.x := by
  intro t e he
  have hemem : e ∈ builtRoutes m := by
    obtain ⟨hlt, rfl⟩ := List.getElem?_eq_some.mp he
    exact List.getElem_mem hlt
  have hex : e.x < (builtStops m).length := (builtRoutes_idx m e hemem).1
  obtain ⟨s, hs⟩ : ∃ s, (builtStops m)[e.x]? = some s := by
    rw [List.getElem?_eq_getElem hex]
    exact ⟨_, rfl⟩
  rw [stopAdj, hs]
  show t ∈ s.n
  rw [builtStops_NInv m e.x s hs, nSpec, List.mem_filter]
  refine ⟨List.mem_range.mpr (List.getElem?_eq_some.mp he).1, ?_⟩
  rw [List.getD_eq_getElem?_getD, he, Option.getD_some]
  exact beq_self_eq_true _

theorem initState_inv (routes : List Route) {n : Nat} (hn : 0 < n) :
    AInv routes n initState := by
  refine ⟨⟨?_, ?_, ?_, ?_, ?_, ?_, ?_, ?_, ?_, ?_, ?_, ?_⟩, ?_⟩
  · intro v x hx
    by_cases hv : v = 0
    · simp only [initState, hv, if_pos rfl] at hx
      rw [← Option.some.inj hx]
    · simp only [initState, if_neg hv] at hx
      cases hx
  · show (if (0 : Nat) = 0 then some (0 : ℝ) else none) = some 0
    rw [if_pos rfl]
  · rfl
  · intro v u hpre
    cases hpre
  · intro v hv0 hgv
    exfalso
    apply hgv
    show (if v = 0 then some (0 : ℝ) else none) = none
    rw [if_neg hv0]
  · intro u hu
    cases hu
  · intro v hv
    have hv0 : v = 0 := by
      rcases List.mem_cons.mp hv with h | h
      · exact h
      · cases h
    show (if v = 0 then some (0 : ℝ) else none) ≠ none
    rw [if_pos hv0]
    exact Option.noConfusion
  · intro v hgv
    right
    by_cases hv : v = 0
    · rw [hv]
      exact List.mem_cons_self _ _
    · exfalso
      apply hgv
      show (if v = 0 then some (0 : ℝ) else none) = none
      rw [if_neg hv]
  · intro v _ hv
    cases hv
  · simp [initState]
  · intro v hgv
    by_cases hv : v = 0
    · rw [hv]; exact hn
    · exfalso
      apply hgv
      show (if v = 0 then some (0 : ℝ) else none) = none
      rw [if_neg hv]
  · intro u hu
    cases hu
  · intro u hu
    cases hu

/-- C1: whenever the engine reports success on a built graph, the final cost
`g` of the goal node (the last-created node, index `s_len - 1`) is the sum of
the weights of the edges along the reconstructed path — witnessed by an edge
chain of the route table whose node sequence is exactly the reversal of the
goal-first output path — and that sum is minimal over all paths from node 0
to the goal in the built graph. -/
theorem claim_C1 (m : Grid) (p : List Nat)
    (hrun : find_path (builtStops m) (builtRoutes m) = some p) :
    ∃ stF es gg,
      runAStar (builtStops m) (builtRoutes m) = some (p, stF) ∧
      EdgePath (builtRoutes m) 0 ((builtStops m).length - 1) es ∧
      stF.g ((builtStops m).length - 1) = some gg ∧
      pathCost es = gg ∧
      p.reverse = 0 :: es.map Route.y ∧
      (∀ es2, EdgePath (builtRoutes m) 0 ((builtStops m).length - 1) es2 →
        gg ≤ pathCost es2) := by
  rw [find_path] at hrun
  obtain ⟨⟨p0, stF⟩, hrA, hp⟩ := Option.map_eq_some'.mp hrun
  have hp0 : p0 = p := hp
  subst hp0
  rw [runAStar] at hrA
  by_cases hL : (builtStops m).length = 0
  · rw [if_pos hL] at hrA
    exact Option.noConfusion hrA
  · rw [if_neg hL] at hrA
    have hn : 0 < (builtStops m).length := Nat.pos_of_ne_zero hL
    obtain ⟨es, gg, hpath, hgoal, hcost, hrev, hmin⟩ :=
      searchLoop_sound (builtRoutes_dval_pos m) (builtRoutes_idx m)
        (builtRoutes_cons m) (built_adj1 m) (built_adj2 m)
        ((builtStops m).length + 1) initState
        (initState_inv (builtRoutes m) hn) p0 stF hrA
    refine ⟨stF, es, gg, ?_, hpath, hgoal, hcost, hrev, hmin⟩
    rw [runAStar, if_neg hL]
    exact hrA

theorem claim_C1_witness :
    find_path (builtStops gridOne) (builtRoutes gridOne) = some [0] ∧
    ∃ stF es gg,
      runAStar (builtStops gridOne) (builtRoutes gridOne) = some ([0], stF) ∧
      EdgePath (builtRoutes gridOne) 0 ((builtStops gridOne).length - 1) es ∧
      stF.g ((builtStops gridOne).length - 1) = some gg ∧
      pathCost es = gg ∧
      ([0] : List Nat).reverse = 0 :: es.map Route.y ∧
      (∀ es2, EdgePath (builtRoutes gridOne) 0 ((builtStops gridOne).length - 1) es2 →
        gg ≤ pathCost es2) :=
  ⟨rfl, claim_C1 gridOne [0] rfl⟩
